import Mathlib

/-!
# A first-fit `sbrk` allocator (`src/malloc.c`)

Shallow embedding of the allocator and theorems about it.

Modelling conventions.

* `size_t` values and pointers are natural numbers below `WORD = 2^64`; every C
  operation that can wrap is written with an explicit `% WORD`.  The one signed
  expression of the source, `(long int) next_addr % ALIGN`, is computed on `Int`
  with the truncating remainder of C.
* Memory is header-granular: `Heap.mem a` is the `meta_block` record stored at
  address `a`.  Payload bytes live in the separate store `Heap.data`; a header
  write does not change `data` and a payload write does not change `mem`.
* The operating system is the program break `Heap.brk` together with the log
  `Heap.os_log` of `sbrk` invocations.  Whether a growth request is granted is an argument
  (`os_ok`) of every operation that can reach `sbrk`, so a theorem quantified
  over `os_ok` holds for every policy of the operating system.
* `assert` failures and dereferences of a null pointer end the execution with
  a `Fault`.  The two loops that follow `next` links take a `fuel` bound on the
  number of iterations and report `Fault.out_of_fuel` when it is used up.
-/

namespace Malloc

/-! ## Constants and machine arithmetic -/

/-- Number of values of a `size_t` or of a pointer. -/
def WORD : Nat := 2 ^ 64

/-- The macro `META_SIZE`: `sizeof(meta_block_t)`, two 8-byte words and two 4-byte ints. -/
def META_SIZE : Nat := 24

/-- The macro `ALIGN`. -/
def ALIGN : Nat := 8

/-- The macro `ALIGN_OFFSET(x)`, `ALIGN - x % ALIGN`; it is `8`, not `0`, on a multiple of 8. -/
def ALIGN_OFFSET (x : Nat) : Nat := ALIGN - x % ALIGN

/-- Unsigned 64-bit addition. -/
def wadd (a b : Nat) : Nat := (a + b) % WORD

/-- Unsigned 64-bit subtraction. -/
def wsub (a b : Nat) : Nat := (a + (WORD - b % WORD)) % WORD

/-- The conversion `(long int) x` of a 64-bit unsigned value (two-complement). -/
def toLong (x : Nat) : Int := if x < 2 ^ 63 then (x : Int) else (x : Int) - 2 ^ 64

/-- The value `(void *) -1` with which `sbrk` reports failure. -/
def SBRK_FAILED : Nat := WORD - 1

/-! ## Data model -/

/-- The struct `meta_block`; `next = 0` is the null pointer and the `int` flag
`is_free`, which only ever holds 0 or 1, is a `Bool`. -/
structure meta_block where
  size : Nat
  next : Nat
  is_free : Bool
  magic : Nat
deriving DecidableEq, Repr, Inhabited

/-- The state of the process that the allocator reads and writes. -/
structure Heap where
  /-- the static variable `global_base` (0 is `NULL`) -/
  global_base : Nat
  /-- the header stored at each address -/
  mem : Nat → meta_block
  /-- the current program break -/
  brk : Nat
  /-- the `sbrk` invocations so far, newest first: the increment and whether it was granted -/
  os_log : List (Nat × Bool)
  /-- payload bytes -/
  data : Nat → Nat

/-- How an execution can end without returning. -/
inductive Fault where
  | assert_failed
  | segfault
  | out_of_fuel
deriving DecidableEq, Repr

/-- Write of a whole header at address `a`. -/
def store (mem : Nat → meta_block) (a : Nat) (b : meta_block) : Nat → meta_block :=
  fun x => if x = a then b else mem x

/-- The heap after the header at address `a` has been overwritten with `b`. -/
def set_block (h : Heap) (a : Nat) (b : meta_block) : Heap :=
  { h with mem := store h.mem a b }

/-- The heap before the first allocation: no block, break at `b0`. -/
def empty_heap (b0 : Nat) : Heap :=
  { global_base := 0, mem := fun _ => default, brk := b0, os_log := [], data := fun _ => 0 }

/-! ## The operating-system primitive -/

/-- The call `sbrk(incr)`: returns the previous break and moves the break by `incr`
(a two-complement `intptr_t`, hence the addition modulo `2^64`); `sbrk(0)` only
reads the break; a request with a non-zero increment is refused when `os_ok` is
false, and then returns `(void *) -1`. -/
def sbrk (os_ok : Bool) (h : Heap) (incr : Nat) : Nat × Heap :=
  if incr = 0 then
    (h.brk, { h with os_log := (0, true) :: h.os_log })
  else if os_ok = true then
    (h.brk, { h with brk := (h.brk + incr) % WORD, os_log := (incr, true) :: h.os_log })
  else
    (SBRK_FAILED, { h with os_log := (incr, false) :: h.os_log })

/-! ## `find_free_block` -/

/-- The local variables of the loop of `find_free_block`. -/
structure find_state where
  curr : Nat
  res : Nat
  last : Nat
  block_size : Nat
deriving DecidableEq, Repr

/-- One execution of the body of the `while` loop of `find_free_block`. -/
def find_step (mem : Nat → meta_block) (st : find_state) : find_state :=
  let last := st.res
  let curr := (mem st.curr).next
  let res :=
    if ¬ (curr ≠ 0 ∧ (mem st.res).is_free = true ∧ (mem curr).is_free = true) then curr else st.res
  let block_size :=
    if curr ≠ 0 then
      let b1 := (st.block_size + (mem curr).size) % WORD
      let b2 := (b1 + (if res ≠ curr then META_SIZE else 0)) % WORD
      if (mem curr).is_free then b2 else 0
    else st.block_size
  { curr := curr, res := res, last := last, block_size := block_size }

/-- The guard of the `while` loop of `find_free_block`. -/
def find_guard (mem : Nat → meta_block) (req_size : Nat) (st : find_state) : Bool :=
  decide (st.curr ≠ 0) && !((mem st.curr).is_free && decide (req_size ≤ st.block_size))

/-- The `while` loop of `find_free_block`, at most `fuel` iterations. -/
def find_loop (mem : Nat → meta_block) (req_size : Nat) : Nat → find_state → Except Fault find_state
  | 0, st => if find_guard mem req_size st then .error .out_of_fuel else .ok st
  | fuel + 1, st =>
    if find_guard mem req_size st then find_loop mem req_size fuel (find_step mem st) else .ok st

/-- What `find_free_block` hands back: the returned pointer, the two out-parameters
`*last` and `*block_size`, and the heap after the call. -/
structure find_result where
  block : Nat
  last : Nat
  block_size : Nat
  heap : Heap

/-- The function `find_free_block(&last, &block_size, req_size)`; `last` is the value
of `*last` on entry. -/
def find_free_block (fuel : Nat) (h : Heap) (last req_size : Nat) : Except Fault find_result :=
  let curr := h.global_base
  let bs0 := if curr ≠ 0 ∧ (h.mem curr).is_free = true then (h.mem curr).size else 0
  match find_loop h.mem req_size fuel { curr := curr, res := curr, last := last, block_size := bs0 } with
  | .error e => .error e
  | .ok st =>
    if st.curr ≠ 0 ∨ req_size ≤ st.block_size then
      if st.res = 0 then .error .segfault
      else
        let nxt := if st.curr ≠ 0 then (h.mem st.curr).next else 0
        .ok { block := st.res, last := st.last, block_size := st.block_size,
              heap := set_block h st.res
                { h.mem st.res with next := nxt, size := st.block_size, magic := 0x12344321 } }
    else
      .ok { block := st.curr, last := st.last, block_size := st.block_size, heap := h }

/-! ## `request_space` -/

/-- The function `request_space(last, block_size, size)`; the result pointer is 0 when
`sbrk` failed. -/
def request_space (os_ok : Bool) (h : Heap) (last block_size size : Nat) : Except Fault (Nat × Heap) :=
  if ¬ ((size + META_SIZE) % WORD > block_size) then .error .assert_failed
  else if ¬ (block_size % ALIGN = 0) then .error .assert_failed
  else
    let new_size0 := wsub size block_size
    let new_size := (new_size0 + ALIGN_OFFSET new_size0) % WORD
    let q := sbrk os_ok h 0
    let new_block := q.1
    let r := sbrk os_ok q.2 ((new_size + META_SIZE) % WORD)
    if r.1 = SBRK_FAILED then .ok (0, r.2)
    else if block_size ≠ 0 then
      if last = 0 then .error .segfault
      else if ¬ ((r.2.mem last).is_free = true) then .error .assert_failed
      else
        .ok (last, set_block r.2 last
          { r.2.mem last with size := (size + ALIGN_OFFSET size) % WORD, next := 0 })
    else
      let h3 := if last ≠ 0 then set_block r.2 last { r.2.mem last with next := new_block } else r.2
      if new_block = 0 then .error .segfault
      else
        .ok (new_block, set_block h3 new_block
          { size := new_size, is_free := true, next := 0, magic := 0x12345678 })

/-! ## `split_block` -/

/-- The padding `ALIGN - (long int) next_addr % ALIGN` computed by `split_block`. -/
def align_factor (next_addr : Nat) : Nat :=
  ((ALIGN : Int) - Int.tmod (toLong next_addr) (ALIGN : Int)).toNat % WORD

/-- The function `split_block(block, block_size, size)`. -/
def split_block (h : Heap) (block block_size size : Nat) : Except Fault Heap :=
  if block = 0 then .error .assert_failed
  else if ¬ (block_size ≥ size) then .error .assert_failed
  else
    let next_addr0 := ((block + META_SIZE) % WORD + size) % WORD
    let af := align_factor next_addr0
    let next_addr := (next_addr0 + af) % WORD
    if (next_addr + META_SIZE) % WORD ≥ ((block + META_SIZE) % WORD + block_size) % WORD then .ok h
    else
      let h1 := set_block h next_addr
        { is_free := true, next := (h.mem block).next,
          size := wsub (wsub (wsub block_size size) af) META_SIZE, magic := 0x55555555 }
      .ok (set_block h1 block { h1.mem block with next := next_addr, size := (size + af) % WORD })

/-! ## The public operations -/

/-- The function `get_block_ptr(ptr)`: the header one `meta_block_t` before `ptr`. -/
def get_block_ptr (ptr : Nat) : Nat := wsub ptr META_SIZE

/-- The two assignments `block->magic = 0x77777777; block->is_free = 0;` of `malloc`. -/
def mark_allocated (h : Heap) (block : Nat) : Heap :=
  set_block h block { h.mem block with magic := 0x77777777, is_free := false }

/-- The function `malloc(size)`; the pointer 0 is `NULL`. -/
def malloc (fuel : Nat) (os_ok : Bool) (h : Heap) (size : Nat) : Except Fault (Nat × Heap) :=
  if size = 0 then .ok (0, h)
  else if h.global_base = 0 then
    match request_space os_ok h 0 0 size with
    | .error e => .error e
    | .ok (block, h1) =>
      if block = 0 then .ok (0, h1)
      else .ok ((block + META_SIZE) % WORD, { h1 with global_base := block })
  else
    match find_free_block fuel h h.global_base size with
    | .error e => .error e
    | .ok r =>
      if r.block = 0 then
        match request_space os_ok r.heap r.last r.block_size size with
        | .error e => .error e
        | .ok (block, h1) =>
          if block = 0 then .ok (0, h1) else .ok ((block + META_SIZE) % WORD, h1)
      else
        match split_block (mark_allocated r.heap r.block) r.block r.block_size size with
        | .error e => .error e
        | .ok h2 => .ok ((r.block + META_SIZE) % WORD, h2)

/-- The function `free(ptr)`. -/
def free (h : Heap) (ptr : Nat) : Heap :=
  if ptr = 0 then h
  else
    let block := get_block_ptr ptr
    set_block h block { h.mem block with is_free := true, magic := 0xffffffff }

/-- Every pointer the allocator keeps (`global_base`, the break, each `next` link) has
the property `Q`. -/
def PtrInv (Q : Nat → Prop) (h : Heap) : Prop :=
  Q h.global_base ∧ Q h.brk ∧ ∀ a, Q (h.mem a).next

/-- Pointer-valued variables hold 64-bit values. -/
def Typed (h : Heap) : Prop := PtrInv (fun a => a < WORD) h

/-- Every pointer the allocator keeps, and the break, is a multiple of `ALIGN`. -/
def Aligned (h : Heap) : Prop := PtrInv (fun a => a % ALIGN = 0) h

/-- Addresses below this bound are non-negative as `long int`. -/
def ADDR_LIMIT : Nat := 2 ^ 63

/-- Heap states reachable from the empty heap with initial break `b0`, together with the
pointers that `malloc` has returned and that have not been passed to `free` since.
A call `malloc(n)` that returns is a step when it returns `NULL` or when the request fits
below the address bound `lim` (`brk + n + 32 < lim`; for 64-bit values `lim = 2 ^ 66` is
no restriction, and `lim = ADDR_LIMIT` keeps every block below `2 ^ 63`, where no address
computation wraps).  `free` is called on live pointers, each return of `malloc` being
released once (`free(NULL)` leaves the heap as it is). -/
inductive Reach (lim b0 : Nat) : Heap → List Nat → Prop
  | init : Reach lim b0 (empty_heap b0) []
  | alloc {h : Heap} {live : List Nat} (fuel : Nat) (os_ok : Bool) (n p : Nat) (h' : Heap) :
      Reach lim b0 h live → n < WORD → (p = 0 ∨ h.brk + n + 32 < lim) →
      malloc fuel os_ok h n = .ok (p, h') →
      Reach lim b0 h' (if p = 0 then live else p :: live)
  | release {h : Heap} {live : List Nat} (p : Nat) :
      Reach lim b0 h live → p ∈ live → Reach lim b0 (free h p) (live.erase p)

/-- The heap after `malloc(n)` on `h`, or `h` itself when the call does not return. -/
def heap_after_malloc (fuel : Nat) (os_ok : Bool) (h : Heap) (n : Nat) : Heap :=
  match malloc fuel os_ok h n with
  | .ok (_, h') => h'
  | .error _ => h

/-- The heap after `malloc(100); malloc(2)` from the empty heap with break 4096: an
allocated block of 8 bytes at 4096 followed by a free block of 72 bytes at 4128. -/
def demo_heap : Heap :=
  heap_after_malloc 3 true (heap_after_malloc 3 true (empty_heap 4096) 100) 2

/-- The heap after `p = malloc(2); free(p)` on `demo_heap`: the block at 4096 is allocated,
the blocks at 4128 and 4160 are free, with 8 and 40 bytes. -/
def demo_heap_two : Heap :=
  free (heap_after_malloc 3 true demo_heap 2) 4152

/-! ## The block list and its layout -/

/-- The blocks of a segment of the list: following `next` from `a` visits the addresses
`L` in order and then reaches `z`.  Every block is non-null, has a positive size, and
its payload ends at or before the next block of the segment (before `hi` for the last). -/
def Seg (mem : Nat → meta_block) (hi : Nat) : Nat → List Nat → Nat → Prop
  | a, [], z => a = z
  | a, b :: L, z =>
    a = b ∧ 0 < b ∧ 0 < (mem b).size ∧ b + META_SIZE + (mem b).size ≤ L.headD hi ∧
      Seg mem hi (mem b).next L z

/-- The list `L` is the block list of `h`: it starts at `global_base`, ends with a null
`next`, and lies below the break. -/
def Blocks (h : Heap) (L : List Nat) : Prop :=
  Seg h.mem h.brk h.global_base L 0

/-- A heap whose block list is `L` and whose break is a positive address below `ADDR_LIMIT`. -/
def WF (h : Heap) (L : List Nat) : Prop :=
  Blocks h L ∧ 0 < h.brk ∧ h.brk < ADDR_LIMIT

/-- The bytes of a run of blocks taken as one block: the payloads, plus one header for
every block after the first. -/
def run_bytes (mem : Nat → meta_block) : List Nat → Nat
  | [] => 0
  | [a] => (mem a).size
  | a :: b :: r => (mem a).size + META_SIZE + run_bytes mem (b :: r)

/-- Every block of `X` is flagged free. -/
def all_free (mem : Nat → meta_block) (X : List Nat) : Prop :=
  ∀ a ∈ X, (mem a).is_free = true

/-- No run of consecutive free blocks inside `V` holds `n` bytes. -/
def NoFit (mem : Nat → meta_block) (n : Nat) (V : List Nat) : Prop :=
  ∀ A X B, V = A ++ X ++ B → X ≠ [] → all_free mem X → run_bytes mem X < n

/-- The loop invariant of `find_free_block` over the block list `L = P ++ R ++ c :: S`:
`c` is the current block, `R ++ [c]` the run accumulated so far (anchored at `res`),
`P` the blocks before the run and `S` the blocks still to visit. -/
structure Walk (mem : Nat → meta_block) (n : Nat) (L : List Nat) (st : find_state)
    (P R : List Nat) (c : Nat) (S : List Nat) : Prop where
  split : L = P ++ R ++ c :: S
  curr : st.curr = c
  res : st.res = R.headD c
  run : (R = [] ∧ (mem c).is_free = false ∧ st.block_size = 0) ∨
        (all_free mem (R ++ [c]) ∧ st.block_size = run_bytes mem (R ++ [c]))
  pred : (mem c).is_free = true → ∀ x, P.getLast? = some x → (mem x).is_free = false
  nofit : NoFit mem n (P ++ R)

/-- The loop of `find_free_block` stopped on a block: the run `R ++ [c]` holds `n` bytes. -/
def Found (mem : Nat → meta_block) (n : Nat) (L : List Nat) (st : find_state)
    (P R : List Nat) (c : Nat) (S : List Nat) : Prop :=
  Walk mem n L st P R c S ∧ (mem c).is_free = true ∧ n ≤ st.block_size

/-- The loop of `find_free_block` ran off the end of the list: `R ++ [c]` is the trailing
run, anchored at `*last`, and no run of the list holds `n` bytes. -/
structure Exhausted (mem : Nat → meta_block) (n : Nat) (L : List Nat) (st : find_state)
    (P R : List Nat) (c : Nat) : Prop where
  split : L = P ++ R ++ [c]
  curr : st.curr = 0
  res : st.res = 0
  last : st.last = R.headD c
  run : (R = [] ∧ (mem c).is_free = false ∧ st.block_size = 0) ∨
        (all_free mem (R ++ [c]) ∧ st.block_size = run_bytes mem (R ++ [c]))
  pred : (mem c).is_free = true → ∀ x, P.getLast? = some x → (mem x).is_free = false
  nofit : NoFit mem n L
  small : st.block_size < n

/-- A well-formed heap in which every block flagged allocated carries a live pointer. -/
def LiveInv (h : Heap) (L : List Nat) (live : List Nat) : Prop :=
  WF h L ∧ ∀ a ∈ L, (h.mem a).is_free = false → a + META_SIZE ∈ live

/-- What a successful `malloc(n)` did to a heap with block list `L`: the new list is
`P ++ a :: T`, the result is the payload of `a`, the blocks `P` before `a` are blocks of
the old list with their flags and sizes, the block just before `a` is allocated, and no
run of free blocks inside `P` holds `n` bytes. -/
structure AllocPost (h : Heap) (L : List Nat) (n p : Nat) (h' : Heap) (L' P : List Nat)
    (a : Nat) (T : List Nat) : Prop where
  wf : WF h' L'
  list : L' = P ++ a :: T
  ptr : p = a + META_SIZE
  pre : ∃ U, L = P ++ U
  same : ∀ x ∈ P, (h'.mem x).is_free = (h.mem x).is_free ∧ (h'.mem x).size = (h.mem x).size
  size : n ≤ (h'.mem a).size
  pred : ∀ x, P.getLast? = some x → (h.mem x).is_free = false
  nofit : NoFit h.mem n P
  flags : ∀ x ∈ L', x ≠ a → (h'.mem x).is_free = false → x ∈ L ∧ (h.mem x).is_free = false

/-- Every header holds a `size` that is a multiple of `ALIGN`. -/
def SizeInv (h : Heap) : Prop := ∀ a, (h.mem a).size % ALIGN = 0

/-- The heap after `p = malloc(1); free(p); q = malloc(16)` from the empty heap with break
4096: the block at 4096 was extended in place to 24 bytes and the break is 4168. -/
def gap_heap_one : Heap :=
  heap_after_malloc 2 true (free (heap_after_malloc 1 true (empty_heap 4096) 1) 4120) 16

/-- The heap after `free(q); r = malloc(16); s = malloc(1)` on `gap_heap_one`: the block at
4096 is reused for `r`, and the block of `s` is appended at 4168. -/
def gap_heap : Heap :=
  heap_after_malloc 2 true (heap_after_malloc 2 true (free gap_heap_one 4120) 16) 1

/-- The heap after `p = malloc(17); free(p)` from the empty heap with break 4096: one free
block of 24 bytes at 4096. -/
def tail_heap : Heap :=
  free (heap_after_malloc 1 true (empty_heap 4096) 17) 4120

/-- The heap after `p = malloc(100); free(p); q = malloc(30); free(q)` from the empty heap
with the break at 4102, which is not a multiple of 8: two free blocks, of 34 bytes at 4102
and of 46 bytes at 4160. -/
def odd_heap : Heap :=
  free (heap_after_malloc 2 true (free (heap_after_malloc 1 true (empty_heap 4102) 100) 4126) 30)
    4126

theorem find_loop_guard (mem : Nat → meta_block) (n : Nat) :
    ∀ (fuel : Nat) (st st' : find_state), find_loop mem n fuel st = .ok st' →
      find_guard mem n st' = false := by
  intro fuel
  induction fuel with
  | zero =>
    intro st st' h
    simp only [find_loop] at h
    split at h
    · cases h
    · rename_i hg; cases h; exact Bool.eq_false_iff.mpr hg
  | succ k ih =>
    intro st st' h
    simp only [find_loop] at h
    split at h
    · exact ih _ _ h
    · rename_i hg; cases h; exact Bool.eq_false_iff.mpr hg

theorem malloc_size_zero (fuel : Nat) (os_ok : Bool) (h : Heap) :
    malloc fuel os_ok h 0 = .ok (0, h) := by
  simp [malloc]

/-- C8: `malloc(0)` returns `NULL` and the heap (base, headers, break, OS log, payload
bytes) is the one before the call. -/
theorem malloc_zero (fuel : Nat) (os_ok : Bool) (h : Heap) :
    malloc fuel os_ok h 0 = .ok (0, h) := by
  simp [malloc]

/-- C1 (failing input): from the empty heap, `malloc(2)` returns 4120 and leaves its block
flagged free; the next call `malloc(1)` returns 4120 again while the first allocation is live. -/
theorem malloc_overlaps_live_allocation :
    ∃ h1 h2, malloc 1 true (empty_heap 4096) 2 = .ok (4120, h1) ∧
      malloc 1 true h1 1 = .ok (4120, h2) :=
  ⟨_, _, rfl, rfl⟩

/-- C2 (failing input): the block returned by the call that seeds the heap, and the block
returned by a call that grows the heap after an exhausted search, are still flagged free. -/
theorem malloc_growth_leaves_block_free :
    ∃ h1 h2 h3, malloc 1 true (empty_heap 4096) 2 = .ok (4120, h1) ∧
      (h1.mem (get_block_ptr 4120)).is_free = true ∧
      malloc 1 true h1 1 = .ok (4120, h2) ∧
      (h2.mem (get_block_ptr 4120)).is_free = false ∧
      malloc 1 true h2 1 = .ok (4152, h3) ∧
      (h3.mem (get_block_ptr 4152)).is_free = true :=
  ⟨_, _, _, rfl, rfl, rfl, rfl, rfl, rfl⟩

/-- C3 (counterexample): on the empty heap `malloc(2^64 - 1)` returns a non-null pointer
to a block whose `size` is 0. -/
theorem malloc_capacity_wraps :
    ∃ h1, malloc 0 true (empty_heap 4096) (2 ^ 64 - 1) = .ok (4120, h1) ∧
      ¬ (2 ^ 64 - 1 ≤ (h1.mem (get_block_ptr 4120)).size) :=
  ⟨_, rfl, by decide⟩

theorem malloc_inv {fuel : Nat} {os_ok : Bool} {h : Heap} {n p : Nat} {h' : Heap}
    (hm : malloc fuel os_ok h n = .ok (p, h')) :
    (n = 0 ∧ p = 0 ∧ h' = h) ∨
    (n ≠ 0 ∧ h.global_base = 0 ∧ ∃ b h1, request_space os_ok h 0 0 n = .ok (b, h1) ∧
      ((b = 0 ∧ p = 0 ∧ h' = h1) ∨
       (b ≠ 0 ∧ p = (b + META_SIZE) % WORD ∧ h' = { h1 with global_base := b }))) ∨
    (n ≠ 0 ∧ h.global_base ≠ 0 ∧ ∃ r, find_free_block fuel h h.global_base n = .ok r ∧
      ((r.block = 0 ∧ ∃ b h1, request_space os_ok r.heap r.last r.block_size n = .ok (b, h1) ∧
          ((b = 0 ∧ p = 0 ∧ h' = h1) ∨ (b ≠ 0 ∧ p = (b + META_SIZE) % WORD ∧ h' = h1))) ∨
       (r.block ≠ 0 ∧ p = (r.block + META_SIZE) % WORD ∧
          split_block (mark_allocated r.heap r.block) r.block r.block_size n = .ok h'))) := by
  unfold malloc at hm
  by_cases hn : n = 0
  · left
    simp only [hn, if_true] at hm
    cases hm
    exact ⟨hn, rfl, rfl⟩
  · right
    simp only [hn, if_false] at hm
    by_cases hb : h.global_base = 0
    · left
      simp only [hb, if_true] at hm
      refine ⟨hn, hb, ?_⟩
      cases hrs : request_space os_ok h 0 0 n with
      | error e => rw [hrs] at hm; cases hm
      | ok v =>
        obtain ⟨b, h1⟩ := v
        rw [hrs] at hm
        refine ⟨b, h1, rfl, ?_⟩
        by_cases hb0 : b = 0
        · simp only [hb0, if_true] at hm
          cases hm
          exact Or.inl ⟨hb0, rfl, rfl⟩
        · simp only [hb0, if_false] at hm
          cases hm
          exact Or.inr ⟨hb0, rfl, rfl⟩
    · right
      simp only [hb, if_false] at hm
      refine ⟨hn, hb, ?_⟩
      cases hf : find_free_block fuel h h.global_base n with
      | error e => rw [hf] at hm; cases hm
      | ok r =>
        rw [hf] at hm
        refine ⟨r, rfl, ?_⟩
        by_cases hr : r.block = 0
        · left
          simp only [hr, if_true] at hm
          refine ⟨hr, ?_⟩
          cases hrs : request_space os_ok r.heap r.last r.block_size n with
          | error e => rw [hrs] at hm; cases hm
          | ok v =>
            obtain ⟨b, h1⟩ := v
            rw [hrs] at hm
            refine ⟨b, h1, rfl, ?_⟩
            by_cases hb0 : b = 0
            · simp only [hb0, if_true] at hm
              cases hm
              exact Or.inl ⟨hb0, rfl, rfl⟩
            · simp only [hb0, if_false] at hm
              cases hm
              exact Or.inr ⟨hb0, rfl, rfl⟩
        · right
          simp only [hr, if_false] at hm
          refine ⟨hr, ?_⟩
          cases hs : split_block (mark_allocated r.heap r.block) r.block r.block_size n with
          | error e => rw [hs] at hm; cases hm
          | ok h2 =>
            rw [hs] at hm
            cases hm
            exact ⟨rfl, rfl⟩

@[simp] theorem sbrk_mem (os_ok : Bool) (h : Heap) (i : Nat) : (sbrk os_ok h i).2.mem = h.mem := by
  unfold sbrk
  split
  · rfl
  · split <;> rfl

@[simp] theorem sbrk_global_base (os_ok : Bool) (h : Heap) (i : Nat) :
    (sbrk os_ok h i).2.global_base = h.global_base := by
  unfold sbrk
  split
  · rfl
  · split <;> rfl

@[simp] theorem sbrk_data (os_ok : Bool) (h : Heap) (i : Nat) : (sbrk os_ok h i).2.data = h.data := by
  unfold sbrk
  split
  · rfl
  · split <;> rfl

@[simp] theorem sbrk_zero_fst (os_ok : Bool) (h : Heap) : (sbrk os_ok h 0).1 = h.brk := by
  simp [sbrk]

@[simp] theorem sbrk_zero_brk (os_ok : Bool) (h : Heap) : (sbrk os_ok h 0).2.brk = h.brk := by
  simp [sbrk]

theorem request_space_inv {os_ok : Bool} {h : Heap} {last bs n b : Nat} {h' : Heap}
    (hr : request_space os_ok h last bs n = .ok (b, h')) :
    (n + META_SIZE) % WORD > bs ∧ bs % ALIGN = 0 ∧
    ∃ ns r, ns = (wsub n bs + ALIGN_OFFSET (wsub n bs)) % WORD ∧
      r = sbrk os_ok (sbrk os_ok h 0).2 ((ns + META_SIZE) % WORD) ∧
      ((r.1 = SBRK_FAILED ∧ b = 0 ∧ h' = r.2) ∨
       (r.1 ≠ SBRK_FAILED ∧ bs ≠ 0 ∧ last ≠ 0 ∧ (h.mem last).is_free = true ∧ b = last ∧
          h' = set_block r.2 last
            { h.mem last with size := (n + ALIGN_OFFSET n) % WORD, next := 0 }) ∨
       (r.1 ≠ SBRK_FAILED ∧ bs = 0 ∧ h.brk ≠ 0 ∧ b = h.brk ∧
          h' = set_block
            (if last ≠ 0 then set_block r.2 last { h.mem last with next := h.brk } else r.2)
            h.brk { size := ns, is_free := true, next := 0, magic := 0x12345678 })) := by
  unfold request_space at hr
  split at hr
  · cases hr
  rename_i ha1
  split at hr
  · cases hr
  rename_i ha2
  refine ⟨by simpa using ha1, by simpa using ha2, _, _, rfl, rfl, ?_⟩
  simp only [sbrk_mem, sbrk_zero_fst] at hr
  split at hr
  · rename_i hf
    cases hr
    exact Or.inl ⟨hf, rfl, rfl⟩
  rename_i hf
  split at hr
  · rename_i hbs
    split at hr
    · cases hr
    rename_i hl
    split at hr
    · cases hr
    rename_i hfree
    cases hr
    exact Or.inr (Or.inl ⟨hf, hbs, hl, by simpa using hfree, rfl, rfl⟩)
  · rename_i hbs
    split at hr
    · cases hr
    rename_i hb0
    cases hr
    exact Or.inr (Or.inr ⟨hf, by simpa using hbs, hb0, rfl, rfl⟩)

/-- The initial loop state of `find_free_block`. -/
theorem find_free_block_inv {fuel : Nat} {h : Heap} {last n : Nat} {r : find_result}
    (hf : find_free_block fuel h last n = .ok r) :
    ∃ st, find_loop h.mem n fuel
        { curr := h.global_base, res := h.global_base, last := last,
          block_size := if h.global_base ≠ 0 ∧ (h.mem h.global_base).is_free = true
                        then (h.mem h.global_base).size else 0 } = .ok st ∧
      r.last = st.last ∧ r.block_size = st.block_size ∧
      (((st.curr ≠ 0 ∨ n ≤ st.block_size) ∧ st.res ≠ 0 ∧ r.block = st.res ∧
          r.heap = set_block h st.res
            { h.mem st.res with next := (if st.curr ≠ 0 then (h.mem st.curr).next else 0),
                                size := st.block_size, magic := 0x12344321 }) ∨
       (st.curr = 0 ∧ st.block_size < n ∧ r.block = 0 ∧ r.heap = h)) := by
  unfold find_free_block at hf
  simp only at hf
  split at hf
  · cases hf
  rename_i st hst
  refine ⟨st, hst, ?_⟩
  split at hf
  · rename_i hc
    split at hf
    · cases hf
    rename_i hres
    cases hf
    exact ⟨rfl, rfl, Or.inl ⟨hc, hres, rfl, rfl⟩⟩
  · rename_i hc
    cases hf
    have hc' : st.curr = 0 ∧ st.block_size < n := by
      constructor
      · by_contra h0; exact hc (Or.inl h0)
      · by_contra h0; exact hc (Or.inr (by omega))
    exact ⟨rfl, rfl, Or.inr ⟨hc'.1, hc'.2, hc'.1, rfl⟩⟩

theorem split_block_inv {h : Heap} {block bs n : Nat} {h' : Heap}
    (hs : split_block h block bs n = .ok h') :
    block ≠ 0 ∧ n ≤ bs ∧
    ∃ na0 af na, na0 = ((block + META_SIZE) % WORD + n) % WORD ∧ af = align_factor na0 ∧
      na = (na0 + af) % WORD ∧
      (((na + META_SIZE) % WORD ≥ ((block + META_SIZE) % WORD + bs) % WORD ∧ h' = h) ∨
       ((na + META_SIZE) % WORD < ((block + META_SIZE) % WORD + bs) % WORD ∧
        h' = set_block
          (set_block h na
            { is_free := true, next := (h.mem block).next,
              size := wsub (wsub (wsub bs n) af) META_SIZE, magic := 0x55555555 })
          block
          { (store h.mem na
              { is_free := true, next := (h.mem block).next,
                size := wsub (wsub (wsub bs n) af) META_SIZE, magic := 0x55555555 }) block with
            next := na, size := (n + af) % WORD })) := by
  unfold split_block at hs
  split at hs
  · cases hs
  rename_i hb
  split at hs
  · cases hs
  rename_i hle
  refine ⟨hb, by simpa using hle, _, _, _, rfl, rfl, rfl, ?_⟩
  simp only at hs
  split at hs
  · rename_i hc
    cases hs
    exact Or.inl ⟨hc, rfl⟩
  · rename_i hc
    cases hs
    exact Or.inr ⟨by omega, rfl⟩

@[simp] theorem set_block_mem (h : Heap) (a : Nat) (b : meta_block) :
    (set_block h a b).mem = store h.mem a b := rfl

@[simp] theorem set_block_data (h : Heap) (a : Nat) (b : meta_block) :
    (set_block h a b).data = h.data := rfl

theorem store_same (mem : Nat → meta_block) (a : Nat) (b : meta_block) : store mem a b a = b := by
  simp [store]

theorem store_other (mem : Nat → meta_block) (a : Nat) (b : meta_block) (x : Nat) (hx : x ≠ a) :
    store mem a b x = mem x := by
  simp [store, hx]

/-- The two `sbrk` calls of `request_space`, case by case. -/
theorem sbrk_pair (os_ok : Bool) (h : Heap) (incr : Nat) :
    (incr ≠ 0 ∧ os_ok = false ∧
      (sbrk os_ok (sbrk os_ok h 0).2 incr).1 = SBRK_FAILED ∧
      (sbrk os_ok (sbrk os_ok h 0).2 incr).2.brk = h.brk ∧
      (sbrk os_ok (sbrk os_ok h 0).2 incr).2.os_log = (incr, false) :: (0, true) :: h.os_log) ∨
    ((incr = 0 ∨ os_ok = true) ∧
      (sbrk os_ok (sbrk os_ok h 0).2 incr).1 = h.brk ∧
      (sbrk os_ok (sbrk os_ok h 0).2 incr).2.brk = (if incr = 0 then h.brk else (h.brk + incr) % WORD) ∧
      (sbrk os_ok (sbrk os_ok h 0).2 incr).2.os_log = (incr, true) :: (0, true) :: h.os_log) := by
  by_cases hz : incr = 0
  · right
    subst hz
    simp [sbrk]
  · cases os_ok with
    | false => left; simp [sbrk, hz]
    | true => right; simp [sbrk, hz]

theorem tmod_eight (a : Int) :
    ∃ r : Int, Int.tmod a 8 = r ∧ -8 < r ∧ r < 8 ∧ (a - r) % 8 = 0 ∧ (0 ≤ a → 0 ≤ r) := by
  cases a with
  | ofNat m =>
    refine ⟨((m % 8 : Nat) : Int), rfl, ?_, ?_, ?_, ?_⟩
    · omega
    · omega
    · simp only [Int.ofNat_eq_coe]; omega
    · intro _; omega
  | negSucc m =>
    refine ⟨-(((m + 1) % 8 : Nat) : Int), rfl, ?_, ?_, ?_, ?_⟩
    · omega
    · omega
    · simp only [Int.negSucc_eq]; omega
    · intro hh; exact absurd hh (by simp [Int.negSucc_not_nonneg])

theorem align_factor_spec (x : Nat) :
    1 ≤ align_factor x ∧ align_factor x ≤ 15 ∧ (x + align_factor x) % 8 = 0 ∧
      (x < 2 ^ 63 → align_factor x = 8 - x % 8) := by
  obtain ⟨r, hr, h1, h2, h3, h4⟩ := tmod_eight (toLong x)
  have haf : align_factor x = ((8 : Int) - r).toNat := by
    unfold align_factor ALIGN WORD
    simp only [Nat.cast_ofNat, hr]
    apply Nat.mod_eq_of_lt
    omega
  have hx : ((x : Int) - toLong x) % 8 = 0 := by
    unfold toLong
    split <;> omega
  refine ⟨by omega, by omega, by omega, ?_⟩
  intro hlt
  have h5 : toLong x = (x : Int) := by unfold toLong; rw [if_pos hlt]
  have h6 : 0 ≤ r := h4 (by omega)
  omega

theorem get_block_ptr_add (b : Nat) (hb : b < WORD) :
    get_block_ptr ((b + META_SIZE) % WORD) = b := by
  unfold get_block_ptr wsub META_SIZE WORD at *
  omega

/-- A property of pointers that every stored `next` link has is kept by the loop variables. -/
theorem find_loop_ptr (mem : Nat → meta_block) (n : Nat) (Q : Nat → Prop)
    (hq : ∀ a, Q (mem a).next) :
    ∀ (fuel : Nat) (st st' : find_state), find_loop mem n fuel st = .ok st' →
      Q st.curr → Q st.res → Q st.last → Q st'.curr ∧ Q st'.res ∧ Q st'.last := by
  intro fuel
  induction fuel with
  | zero =>
    intro st st' h h1 h2 h3
    simp only [find_loop] at h
    split at h
    · cases h
    · cases h; exact ⟨h1, h2, h3⟩
  | succ k ih =>
    intro st st' h h1 h2 h3
    simp only [find_loop] at h
    split at h
    · refine ih _ _ h (hq _) ?_ h2
      simp only [find_step]
      split
      · exact hq _
      · exact h2
    · cases h; exact ⟨h1, h2, h3⟩

theorem find_free_block_ptr {fuel : Nat} {h : Heap} {n : Nat} {r : find_result} (Q : Nat → Prop)
    (hq : ∀ a, Q (h.mem a).next) (hb : Q h.global_base) (h0 : Q 0)
    (hf : find_free_block fuel h h.global_base n = .ok r) :
    Q r.block ∧ Q r.last := by
  obtain ⟨st, hst, hl, _, hc⟩ := find_free_block_inv hf
  obtain ⟨_, h2, h3⟩ := find_loop_ptr h.mem n Q hq fuel _ _ hst hb hb hb
  rw [hl]
  rcases hc with ⟨_, _, hblk, _⟩ | ⟨_, _, hblk, _⟩
  · rw [hblk]; exact ⟨h2, h3⟩
  · rw [hblk]; exact ⟨h0, h3⟩

theorem find_free_block_found_le {fuel : Nat} {h : Heap} {last n : Nat} {r : find_result}
    (hf : find_free_block fuel h last n = .ok r) (hr : r.block ≠ 0) :
    n ≤ r.block_size ∧ (r.heap.mem r.block).size = r.block_size := by
  obtain ⟨st, hst, _, hbs, hc⟩ := find_free_block_inv hf
  have hg := find_loop_guard h.mem n fuel _ _ hst
  rcases hc with ⟨hc1, _, hblk, hh⟩ | ⟨_, _, hblk, _⟩
  · constructor
    · rw [hbs]
      rcases hc1 with hc1 | hc1
      · simp only [find_guard] at hg
        simp [hc1] at hg
        exact hg.2
      · exact hc1
    · rw [hh, hblk, hbs]
      simp [store_same]
  · exact absurd hblk hr

theorem wsub_zero (n : Nat) (hn : n < WORD) : wsub n 0 = n := by
  unfold wsub WORD at *
  omega

/-- C3, amended: for every request `0 < n ≤ 2^64 - 16` and every heap whose pointers are
64-bit values (every reachable state is one, see `reach_typed`), a non-null result of
`malloc(n)` is the payload of a block of `size ≥ n`. -/
theorem malloc_capacity (fuel : Nat) (os_ok : Bool) (h : Heap) (n p : Nat) (h' : Heap)
    (hT : Typed h) (hn : 0 < n) (hb : n + 16 ≤ WORD)
    (hm : malloc fuel os_ok h n = .ok (p, h')) (hp : p ≠ 0) :
    n ≤ (h'.mem (get_block_ptr p)).size := by
  obtain ⟨hT1, hT2, hT3⟩ := hT
  have hpad : n ≤ (n + ALIGN_OFFSET n) % WORD := by
    unfold ALIGN_OFFSET ALIGN WORD at *
    omega
  rcases malloc_inv hm with ⟨h0, _, _⟩ | ⟨_, _, b, h1, hrs, hcase⟩ | ⟨_, _, r, hf, hcase⟩
  · omega
  · rcases hcase with ⟨_, hp0, _⟩ | ⟨hb0, hpe, hh⟩
    · exact absurd hp0 hp
    · obtain ⟨_, _, ns, q, hns, _, hc⟩ := request_space_inv hrs
      rw [wsub_zero n (by unfold WORD at *; omega)] at hns
      rcases hc with ⟨_, hb', _⟩ | ⟨_, hne, _⟩ | ⟨_, _, _, hb', hh1⟩
      · exact absurd hb' hb0
      · exact absurd rfl hne
      · subst hh hpe
        rw [hb', get_block_ptr_add _ hT2, hh1]
        simp only [set_block_mem, store_same]
        rw [hns]; exact hpad
  · have hptr := find_free_block_ptr (fun a => a < WORD) hT3 hT1 (by unfold WORD; omega) hf
    rcases hcase with ⟨hr0, b, h1, hrs, hc2⟩ | ⟨hr0, hpe, hs⟩
    · rcases hc2 with ⟨_, hp0, _⟩ | ⟨hb0, hpe, hh⟩
      · exact absurd hp0 hp
      · obtain ⟨st, _, _, _, hfc⟩ := find_free_block_inv hf
        have hheap : r.heap = h := by
          rcases hfc with ⟨_, hres, hblk, _⟩ | ⟨_, _, _, hh'⟩
          · exact absurd (hblk ▸ hr0) hres
          · exact hh'
        obtain ⟨_, _, ns, q, hns, _, hc⟩ := request_space_inv hrs
        rcases hc with ⟨_, hb', _⟩ | ⟨_, _, _, _, hb', hh1⟩ | ⟨_, hbs, _, hb', hh1⟩
        · exact absurd hb' hb0
        · subst hh hpe
          rw [hb', get_block_ptr_add _ hptr.2, hh1]
          simp only [set_block_mem, store_same]
          exact hpad
        · subst hh hpe
          rw [hbs, wsub_zero n (by unfold WORD at *; omega)] at hns
          rw [hheap] at hb' hh1
          rw [hb', get_block_ptr_add _ hT2, hh1]
          simp only [set_block_mem, store_same]
          rw [hns]; exact hpad
    · obtain ⟨hle, hsz⟩ := find_free_block_found_le hf hr0
      obtain ⟨_, _, na0, af, na, _, haf, _, hsc⟩ := split_block_inv hs
      rw [hpe, get_block_ptr_add _ hptr.1]
      rcases hsc with ⟨_, hh⟩ | ⟨_, hh⟩
      · rw [hh]
        simp only [mark_allocated, set_block_mem, store_same]
        omega
      · rw [hh]
        simp only [set_block_mem, store_same]
        have := align_factor_spec na0
        rw [← haf] at this
        unfold WORD at *
        omega

/-- Witness for C3 (amended): `malloc(100)` on the empty heap hands out a block of size 104. -/
theorem malloc_capacity_witness :
    100 ≤ ((heap_after_malloc 0 true (empty_heap 4096) 100).mem (get_block_ptr 4120)).size :=
  malloc_capacity 0 true (empty_heap 4096) 100 4120 (heap_after_malloc 0 true (empty_heap 4096) 100)
    ⟨by decide, by decide, fun _ => Nat.zero_lt_succ _⟩ (by decide) (by decide) rfl (by decide)

/-- A pointer property that holds of `NULL`, of every break `sbrk` can produce from a break
with the property, and of every address at which `split_block` places a header, is an
invariant of `malloc`; the block behind a returned pointer has the property as well. -/
theorem malloc_ptr_inv (Q : Nat → Prop) (h0 : Q 0)
    (hbrk : ∀ b x, Q b → Q ((b + ((x + ALIGN_OFFSET x) % WORD + META_SIZE) % WORD) % WORD))
    (hsplit : ∀ x, Q ((x + align_factor x) % WORD))
    {fuel : Nat} {os_ok : Bool} {h : Heap} {n p : Nat} {h' : Heap}
    (hI : PtrInv Q h) (hm : malloc fuel os_ok h n = .ok (p, h')) :
    PtrInv Q h' ∧ (p = 0 ∨ ∃ b, Q b ∧ p = (b + META_SIZE) % WORD) := by
  obtain ⟨hI1, hI2, hI3⟩ := hI
  -- the heap after the two `sbrk` calls
  have hsb : ∀ (g : Heap) (x : Nat), PtrInv Q g →
      PtrInv Q (sbrk os_ok (sbrk os_ok g 0).2 (((x + ALIGN_OFFSET x) % WORD + META_SIZE) % WORD)).2 := by
    intro g x ⟨g1, g2, g3⟩
    refine ⟨by simpa using g1, ?_, by simpa using g3⟩
    rcases sbrk_pair os_ok g (((x + ALIGN_OFFSET x) % WORD + META_SIZE) % WORD) with
      ⟨_, _, _, e, _⟩ | ⟨_, _, e, _⟩
    · rw [e]; exact g2
    · rw [e]; split
      · exact g2
      · exact hbrk _ _ g2
  have hset : ∀ (g : Heap) (a : Nat) (b : meta_block), PtrInv Q g → Q b.next →
      PtrInv Q (set_block g a b) := by
    intro g a b ⟨g1, g2, g3⟩ hb
    refine ⟨g1, g2, fun x => ?_⟩
    simp only [set_block_mem, store]
    split
    · exact hb
    · exact g3 x
  have hreq : ∀ (g : Heap) (last bs b : Nat) (g' : Heap), PtrInv Q g → Q last →
      request_space os_ok g last bs n = .ok (b, g') → PtrInv Q g' ∧ Q b := by
    intro g last bs b g' hg hl hrs
    obtain ⟨_, _, ns, q, hns, hq, hc⟩ := request_space_inv hrs
    have hq2 : PtrInv Q q.2 := by rw [hq, hns]; exact hsb g _ hg
    rcases hc with ⟨_, hb', hh⟩ | ⟨_, _, _, _, hb', hh⟩ | ⟨_, _, _, hb', hh⟩
    · rw [hh, hb']; exact ⟨hq2, h0⟩
    · rw [hh, hb']; exact ⟨hset _ _ _ hq2 h0, hl⟩
    · rw [hh, hb']
      refine ⟨hset _ _ _ ?_ h0, hg.2.1⟩
      split
      · exact hset _ _ _ hq2 hg.2.1
      · exact hq2
  rcases malloc_inv hm with ⟨_, hp, hh⟩ | ⟨_, _, b, h1, hrs, hcase⟩ | ⟨_, _, r, hf, hcase⟩
  · subst hh; exact ⟨⟨hI1, hI2, hI3⟩, Or.inl hp⟩
  · obtain ⟨hq, hb⟩ := hreq h 0 0 b h1 ⟨hI1, hI2, hI3⟩ h0 hrs
    rcases hcase with ⟨_, hp0, hh⟩ | ⟨_, hpe, hh⟩
    · subst hh; exact ⟨hq, Or.inl hp0⟩
    · subst hh; exact ⟨⟨hb, hq.2.1, hq.2.2⟩, Or.inr ⟨b, hb, hpe⟩⟩
  · have hptr := find_free_block_ptr Q hI3 hI1 h0 hf
    obtain ⟨st, hst, _, _, hfc⟩ := find_free_block_inv hf
    have hheap : PtrInv Q r.heap := by
      rcases hfc with ⟨_, _, _, hh⟩ | ⟨_, _, _, hh⟩
      · rw [hh]
        refine hset _ _ _ ⟨hI1, hI2, hI3⟩ ?_
        simp only
        split
        · exact hI3 _
        · exact h0
      · rw [hh]; exact ⟨hI1, hI2, hI3⟩
    rcases hcase with ⟨_, b, h1, hrs, hc2⟩ | ⟨_, hpe, hs⟩
    · obtain ⟨hq, hb⟩ := hreq r.heap r.last r.block_size b h1 hheap hptr.2 hrs
      rcases hc2 with ⟨_, hp0, hh⟩ | ⟨_, hpe, hh⟩
      · subst hh; exact ⟨hq, Or.inl hp0⟩
      · subst hh; exact ⟨hq, Or.inr ⟨b, hb, hpe⟩⟩
    · refine ⟨?_, Or.inr ⟨r.block, hptr.1, hpe⟩⟩
      have hmark : PtrInv Q (mark_allocated r.heap r.block) := by
        unfold mark_allocated
        exact hset _ _ _ hheap (hheap.2.2 _)
      obtain ⟨_, _, na0, af, na, _, haf, hna, hsc⟩ := split_block_inv hs
      rcases hsc with ⟨_, hh⟩ | ⟨_, hh⟩
      · rw [hh]; exact hmark
      · rw [hh]
        have hQna : Q na := by rw [hna, haf]; exact hsplit _
        refine hset _ _ _ (hset _ _ _ hmark ?_) ?_
        · show Q ((mark_allocated r.heap r.block).mem r.block).next
          exact hmark.2.2 _
        · show Q na
          exact hQna

theorem free_ptr_inv (Q : Nat → Prop) {h : Heap} (p : Nat) (hI : PtrInv Q h) :
    PtrInv Q (free h p) := by
  unfold free
  split
  · exact hI
  · obtain ⟨g1, g2, g3⟩ := hI
    refine ⟨g1, g2, fun x => ?_⟩
    simp only [set_block_mem, store]
    split
    · exact g3 _
    · exact g3 x

theorem reach_ptr_inv (Q : Nat → Prop) (h0 : Q 0)
    (hbrk : ∀ b x, Q b → Q ((b + ((x + ALIGN_OFFSET x) % WORD + META_SIZE) % WORD) % WORD))
    (hsplit : ∀ x, Q ((x + align_factor x) % WORD))
    {lim b0 : Nat} (hb0 : Q b0) {h : Heap} {live : List Nat} (hR : Reach lim b0 h live) :
    PtrInv Q h := by
  induction hR with
  | init => exact ⟨h0, hb0, fun _ => h0⟩
  | alloc fuel os_ok n p h' _ _ _ hm ih => exact (malloc_ptr_inv Q h0 hbrk hsplit ih hm).1
  | release p _ _ ih => exact free_ptr_inv Q p ih

theorem aligned_brk (b x : Nat) (hb : b % ALIGN = 0) :
    ((b + ((x + ALIGN_OFFSET x) % WORD + META_SIZE) % WORD) % WORD) % ALIGN = 0 := by
  unfold ALIGN_OFFSET ALIGN WORD META_SIZE at *
  omega

theorem aligned_split (x : Nat) : ((x + align_factor x) % WORD) % ALIGN = 0 := by
  have := (align_factor_spec x).2.2.1
  unfold ALIGN WORD
  omega

/-- C6: when the initial break is a multiple of 8, every pointer returned by `malloc` in a
reachable state is a multiple of 8, and so is the address of the header in front of it. -/
theorem malloc_aligned (lim b0 : Nat) (h : Heap) (live : List Nat) (fuel : Nat) (os_ok : Bool)
    (n p : Nat) (h' : Heap) (hb0 : b0 % ALIGN = 0) (hR : Reach lim b0 h live)
    (hm : malloc fuel os_ok h n = .ok (p, h')) :
    p % ALIGN = 0 ∧ (p ≠ 0 → get_block_ptr p % ALIGN = 0) := by
  have hI : PtrInv (fun a => a % ALIGN = 0) h :=
    reach_ptr_inv (fun a => a % ALIGN = 0) rfl aligned_brk aligned_split hb0 hR
  obtain ⟨_, hp⟩ := malloc_ptr_inv (fun a => a % ALIGN = 0) rfl aligned_brk aligned_split hI hm
  rcases hp with hp | ⟨b, hb, hp⟩
  · subst hp; exact ⟨rfl, fun hne => absurd rfl hne⟩
  · subst hp
    unfold get_block_ptr wsub ALIGN WORD META_SIZE at *
    omega

/-- Witness for C6: after `malloc(2)` and `malloc(1)` from the empty heap with break 4096,
`malloc(3)` returns the multiple of 8 that the theorem promises. -/
theorem malloc_aligned_witness :
    4152 % ALIGN = 0 ∧ (4152 ≠ 0 → get_block_ptr 4152 % ALIGN = 0) :=
  malloc_aligned (2 ^ 63) 4096
    (heap_after_malloc 1 true (heap_after_malloc 1 true (empty_heap 4096) 2) 1) [4120, 4120]
    1 true 3 4152
    (heap_after_malloc 1 true
      (heap_after_malloc 1 true (heap_after_malloc 1 true (empty_heap 4096) 2) 1) 3)
    (by decide)
    (Reach.alloc 1 true 1 4120 _
      (Reach.alloc 1 true 2 4120 _ Reach.init (by decide) (Or.inr (by decide)) rfl)
      (by decide) (Or.inr (by decide)) rfl)
    rfl

theorem headD_append (X Y : List Nat) (d : Nat) : (X ++ Y).headD d = X.headD (Y.headD d) := by
  cases X <;> rfl

theorem seg_append (mem : Nat → meta_block) (hi : Nat) :
    ∀ (X Y : List Nat) (a z : Nat),
      Seg mem hi a (X ++ Y) z ↔
        Seg mem (Y.headD hi) a X (Y.headD z) ∧ Seg mem hi (Y.headD z) Y z := by
  intro X
  induction X with
  | nil =>
    intro Y a z
    cases Y with
    | nil =>
      constructor
      · intro h; exact ⟨h, rfl⟩
      · intro h; exact h.1
    | cons y Y =>
      constructor
      · intro h
        have h1 : a = y := h.1
        subst h1
        exact ⟨rfl, h⟩
      · intro h
        have h1 : a = y := h.1
        subst h1
        exact h.2
  | cons x X ih =>
    intro Y a z
    rw [List.cons_append]
    constructor
    · rintro ⟨h1, h2, h3, h4, h5⟩
      rw [headD_append] at h4
      obtain ⟨i1, i2⟩ := (ih Y _ z).mp h5
      exact ⟨⟨h1, h2, h3, h4, i1⟩, i2⟩
    · rintro ⟨⟨h1, h2, h3, h4, h5⟩, h6⟩
      exact ⟨h1, h2, h3, by rw [headD_append]; exact h4, (ih Y _ z).mpr ⟨h5, h6⟩⟩

theorem seg_frame (mem mem' : Nat → meta_block) (hi : Nat) :
    ∀ (L : List Nat) (a z : Nat),
      (∀ x ∈ L, (mem' x).size = (mem x).size ∧ (mem' x).next = (mem x).next) →
      Seg mem hi a L z → Seg mem' hi a L z := by
  intro L
  induction L with
  | nil => intro a z _ h; exact h
  | cons b L ih =>
    intro a z hag h
    obtain ⟨h1, h2, h3, h4, h5⟩ := h
    have hb := hag b (List.mem_cons_self _ _)
    refine ⟨h1, h2, by rw [hb.1]; exact h3, by rw [hb.1]; exact h4, ?_⟩
    rw [hb.2]
    exact ih _ _ (fun x hx => hag x (List.mem_cons_of_mem _ hx)) h5

theorem seg_mono (mem : Nat → meta_block) (hi hi' : Nat) (hle : hi ≤ hi') :
    ∀ (L : List Nat) (a z : Nat), Seg mem hi a L z → Seg mem hi' a L z := by
  intro L
  induction L with
  | nil => intro a z h; exact h
  | cons b L ih =>
    intro a z h
    obtain ⟨h1, h2, h3, h4, h5⟩ := h
    refine ⟨h1, h2, h3, ?_, ih _ _ h5⟩
    cases L with
    | nil => simp only [List.headD_nil] at h4 ⊢; omega
    | cons c L => exact h4

theorem seg_head {mem : Nat → meta_block} {hi a c z : Nat} {S : List Nat}
    (h : Seg mem hi a (c :: S) z) :
    a = c ∧ 0 < c ∧ 0 < (mem c).size ∧ c + META_SIZE + (mem c).size ≤ S.headD hi ∧
      (mem c).next = S.headD z := by
  obtain ⟨h1, h2, h3, h4, h5⟩ := h
  refine ⟨h1, h2, h3, h4, ?_⟩
  cases S with
  | nil => exact h5
  | cons s S => exact h5.1

/-- Every block of a segment lies at or after its start and ends at or before `hi`. -/
theorem seg_bounds (mem : Nat → meta_block) (hi : Nat) :
    ∀ (L : List Nat) (a z : Nat), Seg mem hi a L z →
      ∀ x ∈ L, a ≤ x ∧ 0 < x ∧ x + META_SIZE + (mem x).size ≤ hi := by
  intro L
  induction L with
  | nil => intro a z _ x hx; cases hx
  | cons b L ih =>
    intro a z h x hx
    obtain ⟨h1, h2, h3, h4, h5⟩ := h
    cases L with
    | nil =>
      simp only [List.mem_singleton] at hx
      subst hx
      simp only [List.headD_nil] at h4
      exact ⟨by omega, h2, h4⟩
    | cons c L =>
      have hc := h5.1
      simp only [List.headD_cons] at h4
      rcases List.mem_cons.mp hx with hx | hx
      · subst hx
        have := ih _ _ h5 c (List.mem_cons_self _ _)
        exact ⟨by omega, h2, by omega⟩
      · have := ih _ _ h5 x hx
        exact ⟨by omega, this.2.1, this.2.2⟩

/-- The blocks after the first start after the first block's payload. -/
theorem seg_tail_gt {mem : Nat → meta_block} {hi a b z : Nat} {L : List Nat}
    (h : Seg mem hi a (b :: L) z) : ∀ x ∈ L, b + META_SIZE + (mem b).size ≤ x := by
  intro x hx
  obtain ⟨_, _, _, h4, h5⟩ := h
  cases L with
  | nil => cases hx
  | cons c L =>
    simp only [List.headD_cons] at h4
    have := (seg_bounds mem hi _ _ _ h5 x hx).1
    have hc := h5.1
    omega

theorem run_bytes_concat (mem : Nat → meta_block) :
    ∀ (X : List Nat) (y : Nat), X ≠ [] →
      run_bytes mem (X ++ [y]) = run_bytes mem X + META_SIZE + (mem y).size := by
  intro X
  induction X with
  | nil => intro y h; exact absurd rfl h
  | cons x X ih =>
    intro y _
    cases X with
    | nil => simp [run_bytes]
    | cons x2 X =>
      have := ih y (by simp)
      show (mem x).size + META_SIZE + run_bytes mem ((x2 :: X) ++ [y]) =
        ((mem x).size + META_SIZE + run_bytes mem (x2 :: X)) + META_SIZE + (mem y).size
      rw [this]
      omega

/-- A run inside a segment fits between its first block and the end of the segment. -/
theorem seg_run_le (mem : Nat → meta_block) (hi : Nat) :
    ∀ (X : List Nat) (a z : Nat), Seg mem hi a X z → X ≠ [] →
      a + META_SIZE + run_bytes mem X ≤ hi := by
  intro X
  induction X with
  | nil => intro a z _ h; exact absurd rfl h
  | cons x X ih =>
    intro a z h _
    obtain ⟨h1, h2, h3, h4, h5⟩ := h
    cases X with
    | nil =>
      simp only [List.headD_nil] at h4
      simp only [run_bytes]
      omega
    | cons y X =>
      simp only [List.headD_cons] at h4
      have := ih _ _ h5 (by simp)
      have hy := h5.1
      simp only [run_bytes]
      omega

/-! ### Runs of free blocks -/

theorem run_bytes_cons_ge (mem : Nat → meta_block) (z : Nat) (T : List Nat) :
    run_bytes mem T ≤ run_bytes mem (z :: T) := by
  cases T with
  | nil => simp [run_bytes]
  | cons t T => simp only [run_bytes]; omega

theorem run_bytes_suffix_le (mem : Nat → meta_block) (Y : List Nat) :
    ∀ Z : List Nat, run_bytes mem Y ≤ run_bytes mem (Z ++ Y) := by
  intro Z
  induction Z with
  | nil => exact Nat.le_refl _
  | cons z Z ih => exact Nat.le_trans ih (run_bytes_cons_ge mem z (Z ++ Y))

theorem all_free_append {mem : Nat → meta_block} {X Y : List Nat} :
    all_free mem (X ++ Y) ↔ all_free mem X ∧ all_free mem Y := by
  unfold all_free
  constructor
  · intro h
    exact ⟨fun a ha => h a (List.mem_append_left _ ha), fun a ha => h a (List.mem_append_right _ ha)⟩
  · rintro ⟨h1, h2⟩ a ha
    rcases List.mem_append.mp ha with ha | ha
    · exact h1 a ha
    · exact h2 a ha

/-- Extending the visited part of the list by the block `c` keeps `NoFit`, provided the
run that ends at `c` is too small. -/
theorem nofit_snoc {mem : Nat → meta_block} {n : Nat} {P R : List Nat} {c : Nat}
    (hV : NoFit mem n (P ++ R))
    (hc : (mem c).is_free = true →
      all_free mem (R ++ [c]) ∧ run_bytes mem (R ++ [c]) < n ∧
        ∀ x, P.getLast? = some x → (mem x).is_free = false) :
    NoFit mem n (P ++ R ++ [c]) := by
  intro A X B hsplit hX hfree
  rcases List.eq_nil_or_concat B with hB | ⟨B', b, hB⟩
  · subst hB
    rw [List.append_nil] at hsplit
    rcases List.eq_nil_or_concat X with hX' | ⟨X', x, hX'⟩
    · exact absurd hX' hX
    · rw [List.concat_eq_append] at hX'
      subst hX'
      rw [← List.append_assoc] at hsplit
      obtain ⟨h1, h2⟩ := List.append_inj' hsplit rfl
      have hxc : c = x := by simpa using h2
      subst hxc
      have hcf : (mem c).is_free = true := hfree c (by simp)
      obtain ⟨hRc, hlt, hpred⟩ := hc hcf
      have hX'free : all_free mem X' := (all_free_append.mp hfree).1
      rcases List.append_eq_append_iff.mp h1 with ⟨a', _, hR⟩ | ⟨c', hP, hX2⟩
      · subst hR
        have : run_bytes mem (X' ++ [c]) ≤ run_bytes mem (a' ++ (X' ++ [c])) :=
          run_bytes_suffix_le mem _ a'
        rw [← List.append_assoc] at this
        omega
      · -- `X'` reaches back into `P`
        rcases List.eq_nil_or_concat c' with hc' | ⟨c2, y, hc'⟩
        · subst hc'
          simp only [List.nil_append] at hX2
          subst hX2
          exact hlt
        · rw [List.concat_eq_append] at hc'
          subst hc'
          exfalso
          have hy : (mem y).is_free = true := hX'free y (by rw [hX2]; simp)
          have hlast : P.getLast? = some y := by rw [hP]; simp
          have := hpred y hlast
          rw [hy] at this
          cases this
  · rw [List.concat_eq_append] at hB
    subst hB
    rw [← List.append_assoc] at hsplit
    obtain ⟨h1, _⟩ := List.append_inj' hsplit rfl
    exact hV A X B' h1 hX hfree

/-! ### The loop of `find_free_block` on a well-formed list -/

theorem headD_concat (R : List Nat) (c d : Nat) : (R ++ [c]).headD d = R.headD c := by
  cases R <;> rfl

/-- What the layout of the list says about the current run of a `Walk`. -/
theorem walk_facts {mem : Nat → meta_block} {n hi base : Nat} {L : List Nat} {st : find_state}
    {P R : List Nat} {c : Nat} {S : List Nat}
    (hseg : Seg mem hi base L 0) (hW : Walk mem n L st P R c S) :
    Seg mem (S.headD hi) st.res (R ++ [c]) (S.headD 0) ∧ Seg mem hi (S.headD 0) S 0 ∧
      0 < c ∧ (mem c).next = S.headD 0 ∧ c + META_SIZE + (mem c).size ≤ S.headD hi ∧
      st.res + META_SIZE + run_bytes mem (R ++ [c]) ≤ S.headD hi ∧ st.res ≤ c ∧ 0 < st.res := by
  have hL : L = P ++ ((R ++ [c]) ++ S) := by rw [hW.split]; simp
  rw [hL] at hseg
  have h1 := ((seg_append mem hi P _ base 0).mp hseg).2
  rw [headD_append, headD_concat, ← hW.res] at h1
  obtain ⟨h2, h3⟩ := (seg_append mem hi (R ++ [c]) S st.res 0).mp h1
  have h4 := ((seg_append mem (S.headD hi) R [c] st.res (S.headD 0)).mp h2).2
  simp only [List.headD_cons] at h4
  obtain ⟨_, h5, _, h6, h7⟩ := seg_head h4
  simp only [List.headD_nil] at h6 h7
  have h8 := seg_run_le mem _ _ _ _ h2 (by simp)
  have h9 := seg_bounds mem _ _ _ _ h2 c (by simp)
  have h10 : 0 < st.res := by
    rw [hW.res]
    cases R with
    | nil => exact h5
    | cons r R =>
      rw [hW.res] at h2
      exact (seg_bounds mem _ _ _ _ h2 r (by simp)).2.1
  exact ⟨h2, h3, h5, h7, h6, h8, h9.1, h10⟩

theorem find_loop_stop (mem : Nat → meta_block) (n fuel : Nat) (st : find_state)
    (hg : find_guard mem n st = false) : find_loop mem n fuel st = .ok st := by
  cases fuel <;> simp [find_loop, hg]

theorem find_loop_go (mem : Nat → meta_block) (n fuel : Nat) (st : find_state)
    (hg : find_guard mem n st = true) :
    find_loop mem n (fuel + 1) st = find_loop mem n fuel (find_step mem st) := by
  simp [find_loop, hg]

theorem find_guard_iff (mem : Nat → meta_block) (n : Nat) (st : find_state) :
    find_guard mem n st = true ↔
      st.curr ≠ 0 ∧ ¬ ((mem st.curr).is_free = true ∧ n ≤ st.block_size) := by
  unfold find_guard
  cases hf : (mem st.curr).is_free <;> simp

/-- While the guard holds, the run that ends at the current block is too small. -/
theorem walk_nofit_next {mem : Nat → meta_block} {n : Nat} {L : List Nat} {st : find_state}
    {P R : List Nat} {c : Nat} {S : List Nat} (hW : Walk mem n L st P R c S)
    (hstop : ¬ ((mem c).is_free = true ∧ n ≤ st.block_size)) :
    NoFit mem n (P ++ R ++ [c]) := by
  refine nofit_snoc hW.nofit (fun hcf => ?_)
  rcases hW.run with ⟨_, hnf, _⟩ | ⟨haf, hbs⟩
  · rw [hcf] at hnf; cases hnf
  · refine ⟨haf, ?_, hW.pred hcf⟩
    rw [← hbs]
    by_contra hge
    exact hstop ⟨hcf, by omega⟩

theorem find_step_block_size (mem : Nat → meta_block) (st : find_state) (c2 : Nat)
    (hnext : (mem st.curr).next = c2) (hc2 : c2 ≠ 0) :
    (find_step mem st).block_size =
      if (mem c2).is_free = true then
        ((st.block_size + (mem c2).size) % WORD +
          (if (find_step mem st).res ≠ c2 then META_SIZE else 0)) % WORD
      else 0 := by
  simp only [find_step, hnext, hc2, ne_eq, not_false_eq_true, if_true]

theorem find_loop_walk {mem : Nat → meta_block} {n hi base : Nat} {L : List Nat}
    (hseg : Seg mem hi base L 0) (hhi : hi < WORD) (hn : 0 < n) :
    ∀ (S P R : List Nat) (c : Nat) (st : find_state) (fuel : Nat),
      Walk mem n L st P R c S → S.length < fuel →
      ∃ st', find_loop mem n fuel st = .ok st' ∧
        ((∃ P' R' c' S', Found mem n L st' P' R' c' S') ∨
         (∃ P' R' c', Exhausted mem n L st' P' R' c')) := by
  intro S
  induction S with
  | nil =>
    intro P R c st fuel hW hfuel
    obtain ⟨h2, h3, hc0, hnext, hext, hrun, hle, hres0⟩ := walk_facts hseg hW
    by_cases hstop : (mem c).is_free = true ∧ n ≤ st.block_size
    · refine ⟨st, find_loop_stop mem n fuel st ?_, Or.inl ⟨P, R, c, [], hW, hstop.1, hstop.2⟩⟩
      rw [Bool.eq_false_iff, Ne, find_guard_iff, hW.curr]
      exact fun h => h.2 hstop
    · have hg : find_guard mem n st = true := by
        rw [find_guard_iff, hW.curr]
        exact ⟨by omega, hstop⟩
      obtain ⟨k, rfl⟩ : ∃ k, fuel = k + 1 := ⟨fuel - 1, by omega⟩
      rw [find_loop_go mem n k st hg]
      simp only [List.headD_nil] at hnext
      have hcurr : (find_step mem st).curr = 0 := by
        simp only [find_step, hW.curr, hnext]
      have hres : (find_step mem st).res = 0 := by
        simp [find_step, hW.curr, hnext]
      have hlast : (find_step mem st).last = st.res := rfl
      have hbs : (find_step mem st).block_size = st.block_size := by
        simp [find_step, hW.curr, hnext]
      refine ⟨_, find_loop_stop mem n k _ ?_, Or.inr ⟨P, R, c, ?_⟩⟩
      · rw [Bool.eq_false_iff, Ne, find_guard_iff, hcurr]
        exact fun h => h.1 rfl
      · refine ⟨hW.split, hcurr, hres, by rw [hlast, hW.res], ?_, hW.pred, ?_, ?_⟩
        · rw [hbs]; exact hW.run
        · rw [hW.split]; exact walk_nofit_next hW hstop
        · rw [hbs]
          rcases hW.run with ⟨_, _, h0⟩ | ⟨haf, _⟩
          · omega
          · by_contra hge
            exact hstop ⟨haf c (by simp), by omega⟩
  | cons c2 S2 ih =>
    intro P R c st fuel hW hfuel
    obtain ⟨h2, h3, hc0, hnext, hext, hrun, hle, hres0⟩ := walk_facts hseg hW
    by_cases hstop : (mem c).is_free = true ∧ n ≤ st.block_size
    · refine ⟨st, find_loop_stop mem n fuel st ?_, Or.inl ⟨P, R, c, c2 :: S2, hW, hstop.1, hstop.2⟩⟩
      rw [Bool.eq_false_iff, Ne, find_guard_iff, hW.curr]
      exact fun h => h.2 hstop
    · have hg : find_guard mem n st = true := by
        rw [find_guard_iff, hW.curr]
        exact ⟨by omega, hstop⟩
      obtain ⟨k, rfl⟩ : ∃ k, fuel = k + 1 := ⟨fuel - 1, by omega⟩
      rw [find_loop_go mem n k st hg]
      simp only [List.headD_cons] at hnext hext hrun
      obtain ⟨_, hc2pos, hc2size, hc2ext, _⟩ := seg_head h3
      have hc2hi : c2 + META_SIZE + (mem c2).size ≤ hi :=
        (seg_bounds mem hi _ _ _ h3 c2 (by simp)).2.2
      have hcurr : (find_step mem st).curr = c2 := by
        simp only [find_step, hW.curr, hnext]
      have hlast : (find_step mem st).last = st.res := rfl
      have hnofit := walk_nofit_next hW hstop
      have hfuel' : S2.length < k := by simp only [List.length_cons] at hfuel; omega
      by_cases hjoin : (mem st.res).is_free = true ∧ (mem c2).is_free = true
      · -- the run goes on
        have hres : (find_step mem st).res = st.res := by
          simp [find_step, hW.curr, hnext, hjoin.1, hjoin.2]
          omega
        have haf : all_free mem (R ++ [c]) ∧ st.block_size = run_bytes mem (R ++ [c]) := by
          rcases hW.run with ⟨hR, hnf, _⟩ | h
          · exfalso
            rw [hW.res, hR] at hjoin
            simp only [List.headD_nil] at hjoin
            rw [hjoin.1] at hnf
            cases hnf
          · exact h
        have hbytes : run_bytes mem (R ++ [c] ++ [c2]) =
            run_bytes mem (R ++ [c]) + META_SIZE + (mem c2).size :=
          run_bytes_concat mem _ _ (by simp)
        have hbs : (find_step mem st).block_size = run_bytes mem (R ++ [c] ++ [c2]) := by
          have hne : st.res ≠ c2 := by unfold META_SIZE at hrun; omega
          rw [find_step_block_size mem st c2 (by rw [hW.curr]; exact hnext) (by omega), hres,
            if_pos hjoin.2, if_pos hne, hbytes, haf.2]
          unfold WORD META_SIZE at *
          omega
        apply ih P (R ++ [c]) c2 (find_step mem st) k ?_ hfuel'
        refine ⟨by rw [hW.split]; simp, hcurr, by rw [hres, headD_concat, hW.res], Or.inr ⟨?_, hbs⟩,
          fun _ => hW.pred (haf.1 c (by simp)), by rw [← List.append_assoc]; exact hnofit⟩
        exact all_free_append.mpr ⟨haf.1, fun a ha => by
          simp only [List.mem_singleton] at ha; subst ha; exact hjoin.2⟩
      · -- a new run starts at `c2`
        have hres : (find_step mem st).res = c2 := by
          simp only [find_step, hW.curr, hnext]
          rw [if_pos]
          intro hh
          exact hjoin hh.2
        have hsz : (mem c2).size < WORD := by omega
        apply ih (P ++ R ++ [c]) [] c2 (find_step mem st) k ?_ hfuel'
        refine ⟨by rw [hW.split]; simp, hcurr, by rw [hres]; rfl, ?_, ?_,
          by rw [List.append_nil]; exact hnofit⟩
        · cases hf2 : (mem c2).is_free with
          | false =>
            left
            refine ⟨rfl, rfl, ?_⟩
            rw [find_step_block_size mem st c2 (by rw [hW.curr]; exact hnext) (by omega), hf2]
            rfl
          | true =>
            right
            refine ⟨fun a ha => by simp only [List.nil_append, List.mem_singleton] at ha; subst ha; exact hf2, ?_⟩
            have hrf : (mem st.res).is_free = false := by
              cases hrf : (mem st.res).is_free
              · rfl
              · exact absurd ⟨hrf, hf2⟩ hjoin
            have hb0 : st.block_size = 0 := by
              rcases hW.run with ⟨_, _, h0⟩ | ⟨haf, _⟩
              · exact h0
              · have : (mem st.res).is_free = true := by
                  apply haf
                  rw [hW.res]
                  cases R <;> simp
                rw [hrf] at this
                cases this
            rw [find_step_block_size mem st c2 (by rw [hW.curr]; exact hnext) (by omega), hres,
              hf2, hb0]
            simp only [List.nil_append, run_bytes, ne_eq, not_true_eq_false, if_false, if_true,
              Nat.zero_add, Nat.add_zero, Nat.mod_mod]
            exact Nat.mod_eq_of_lt hsz
        · intro hf2 x hx
          have hxc : x = c := by simpa using hx.symm
          subst hxc
          have hrf : (mem st.res).is_free = false := by
            cases hrf : (mem st.res).is_free
            · rfl
            · exact absurd ⟨hrf, hf2⟩ hjoin
          rcases hW.run with ⟨_, hnf, _⟩ | ⟨haf, _⟩
          · exact hnf
          · have : (mem st.res).is_free = true := by
              apply haf
              rw [hW.res]
              cases R <;> simp
            rw [hrf] at this
            cases this

/-- On a well-formed list, with fuel for every block, `find_free_block` returns, and its
result is described by `Found` or by `Exhausted`. -/
theorem find_free_block_spec {h : Heap} {L : List Nat} {n hi : Nat} (last fuel : Nat)
    (hseg : Seg h.mem hi h.global_base L 0) (hhi : hi < WORD) (hn : 0 < n)
    (hb : h.global_base ≠ 0) (hfuel : L.length ≤ fuel) :
    ∃ r st, find_free_block fuel h last n = .ok r ∧ r.block_size = st.block_size ∧
      ((∃ P R c S, Found h.mem n L st P R c S ∧ r.block = R.headD c ∧
          r.heap = set_block h (R.headD c)
            { h.mem (R.headD c) with next := (h.mem c).next, size := st.block_size,
                                     magic := 0x12344321 }) ∨
       (∃ P R c, Exhausted h.mem n L st P R c ∧ r.block = 0 ∧ r.last = R.headD c ∧
          r.heap = h)) := by
  cases L with
  | nil => exact absurd hseg hb
  | cons c0 S0 =>
    have hc0 : h.global_base = c0 := hseg.1
    have hW : Walk h.mem n (c0 :: S0)
        { curr := h.global_base, res := h.global_base, last := last,
          block_size := if h.global_base ≠ 0 ∧ (h.mem h.global_base).is_free = true
                        then (h.mem h.global_base).size else 0 } [] [] c0 S0 := by
      refine ⟨rfl, hc0, hc0, ?_, ?_, ?_⟩
      · rw [hc0]
        cases hf : (h.mem c0).is_free with
        | false => left; simp
        | true =>
          right
          refine ⟨fun a ha => by simp only [List.nil_append, List.mem_singleton] at ha; subst ha; exact hf, ?_⟩
          have : c0 ≠ 0 := hc0 ▸ hb
          simp [this, run_bytes]
      · intro _ x hx; cases hx
      · intro A X B hsplit hX _
        exfalso
        apply hX
        have h1 : A ++ X ++ B = [] := by simpa using hsplit.symm
        simp only [List.append_eq_nil] at h1
        exact h1.1.2
    obtain ⟨st, hloop, hres⟩ := find_loop_walk hseg hhi hn S0 [] [] c0 _ fuel hW
      (by simp only [List.length_cons] at hfuel; omega)
    unfold find_free_block
    simp only [hloop]
    rcases hres with ⟨P, R, c, S, hF⟩ | ⟨P, R, c, hE⟩
    · obtain ⟨_, _, hcpos, _, _, _, _, hrpos⟩ := walk_facts hseg hF.1
      have hcne : st.curr ≠ 0 := by rw [hF.1.curr]; omega
      have hrne : st.res ≠ 0 := by omega
      simp only [hcne, ne_eq, not_false_eq_true, true_or, if_true, hrne, if_false]
      refine ⟨_, st, rfl, rfl, Or.inl ⟨P, R, c, S, hF, hF.1.res, ?_⟩⟩
      simp only [hF.1.res, hF.1.curr]
    · have hcond : ¬ (st.curr ≠ 0 ∨ n ≤ st.block_size) := by
        have := hE.small
        have := hE.curr
        omega
      simp only [hcond, if_false]
      exact ⟨_, st, rfl, rfl, Or.inr ⟨P, R, c, hE, hE.curr, hE.last, rfl⟩⟩

/-! ### `split_block` on a well-formed list -/

theorem seg_store_notin (mem : Nat → meta_block) (hi : Nat) (a : Nat) (b : meta_block)
    (L : List Nat) (x z : Nat) (ha : a ∉ L) (h : Seg mem hi x L z) :
    Seg (store mem a b) hi x L z := by
  refine seg_frame mem _ hi L x z (fun y hy => ?_) h
  have : y ≠ a := fun e => ha (e ▸ hy)
  rw [store_other _ _ _ _ this]
  exact ⟨rfl, rfl⟩

theorem wsub_eq (x y : Nat) (hy : y ≤ x) (hx : x < WORD) : wsub x y = x - y := by
  unfold wsub WORD at *
  have : y % 18446744073709551616 = y := Nat.mod_eq_of_lt (by omega)
  omega

/-- Splitting the block `a` of a well-formed list keeps the list well formed: either
nothing changes, or a free block `na` is inserted right after `a`, inside the old payload
of `a`. -/
theorem split_block_wf {g g' : Heap} {hi base a bs n : Nat} {P S : List Nat}
    (hseg : Seg g.mem hi base (P ++ a :: S) 0) (hhi : hi < ADDR_LIMIT)
    (hbs : (g.mem a).size = bs) (hn : 0 < n)
    (hs : split_block g a bs n = .ok g') :
    g'.brk = g.brk ∧ g'.os_log = g.os_log ∧ g'.global_base = g.global_base ∧
    n ≤ (g'.mem a).size ∧ (g'.mem a).is_free = (g.mem a).is_free ∧
    ∃ T, Seg g'.mem hi base (P ++ a :: T) 0 ∧
      (∀ x ∈ P ++ S, g'.mem x = g.mem x) ∧
      (T = S ∨ ∃ na, T = na :: S ∧ (g'.mem na).is_free = true ∧
        a + META_SIZE + n < na ∧ na + META_SIZE + (g'.mem na).size = a + META_SIZE + bs) := by
  obtain ⟨ha0, hle, na0, af, na, hna0, haf, hna, hsc⟩ := split_block_inv hs
  obtain ⟨hP, hA⟩ := (seg_append g.mem hi P (a :: S) base 0).mp hseg
  simp only [List.headD_cons] at hP hA
  obtain ⟨_, hapos, _, haext, hanext⟩ := seg_head hA
  have hahi := (seg_bounds g.mem hi _ _ _ hA a (by simp)).2.2
  rw [hbs] at haext hahi
  rcases hsc with ⟨_, hh⟩ | ⟨hlt, hh⟩
  · subst hh
    exact ⟨rfl, rfl, rfl, by omega, rfl, S, hseg, fun _ _ => rfl, Or.inl rfl⟩
  · have hna0' : na0 = a + META_SIZE + n := by
      rw [hna0]; unfold META_SIZE WORD ADDR_LIMIT at *; omega
    have hafs := align_factor_spec na0
    rw [← haf] at hafs
    have hna' : na = na0 + af := by
      rw [hna]; unfold META_SIZE WORD ADDR_LIMIT at *; omega
    have hlt' : na + META_SIZE < a + META_SIZE + bs := by
      unfold META_SIZE WORD ADDR_LIMIT at *; omega
    have hne : a ≠ na := by omega
    have hsz : wsub (wsub (wsub bs n) af) META_SIZE = bs - n - af - META_SIZE := by
      have hb : bs < WORD := by unfold META_SIZE WORD ADDR_LIMIT at *; omega
      rw [wsub_eq bs n hle hb, wsub_eq (bs - n) af (by omega) (by omega),
        wsub_eq (bs - n - af) META_SIZE (by omega) (by omega)]
    have hma : g'.mem a =
        { (g.mem a) with next := na, size := (n + af) % WORD } := by
      rw [hh]
      simp only [set_block_mem, store_same]
      rw [store_other _ _ _ _ hne]
    have hmna : g'.mem na =
        { is_free := true, next := (g.mem a).next,
          size := wsub (wsub (wsub bs n) af) META_SIZE, magic := 0x55555555 } := by
      rw [hh]
      simp only [set_block_mem]
      rw [store_other _ _ _ _ (Ne.symm hne), store_same]
    have hother : ∀ x, x ≠ a → x ≠ na → g'.mem x = g.mem x := by
      intro x h1 h2
      rw [hh]
      simp only [set_block_mem]
      rw [store_other _ _ _ _ h1, store_other _ _ _ _ h2]
    have hPlt : ∀ x ∈ P, x < a := by
      intro x hx
      have := (seg_bounds g.mem a _ _ _ hP x hx).2.2
      unfold META_SIZE at this; omega
    have hSgt : ∀ x ∈ S, a + META_SIZE + bs ≤ x := by
      intro x hx
      have := seg_tail_gt hA x hx
      rw [hbs] at this
      exact this
    have hsame : ∀ x ∈ P ++ S, g'.mem x = g.mem x := by
      intro x hx
      rcases List.mem_append.mp hx with hx | hx
      · have := hPlt x hx
        exact hother x (by omega) (by omega)
      · have := hSgt x hx
        exact hother x (by omega) (by omega)
    have hmod : (n + af) % WORD = n + af := by
      unfold META_SIZE WORD ADDR_LIMIT at *; omega
    refine ⟨by rw [hh]; rfl, by rw [hh]; rfl, by rw [hh]; rfl, ?_, by rw [hma], na :: S, ?_, hsame,
      Or.inr ⟨na, rfl, by rw [hmna], by omega, ?_⟩⟩
    · rw [hma]; simp only; omega
    · apply (seg_append g'.mem hi P (a :: na :: S) base 0).mpr
      simp only [List.headD_cons]
      constructor
      · exact seg_frame g.mem _ a P base a
          (fun x hx => by rw [hsame x (List.mem_append_left _ hx)]; exact ⟨rfl, rfl⟩) hP
      · refine ⟨rfl, hapos, ?_, ?_, ?_⟩
        · rw [hma]; simp only; omega
        · rw [hma]; simp only [List.headD_cons]; omega
        · rw [hma]
          refine ⟨rfl, by omega, ?_, ?_, ?_⟩
          · rw [hmna]; simp only; rw [hsz]; omega
          · rw [hmna]; simp only; rw [hsz]; omega
          · rw [hmna]
            simp only
            rw [hanext]
            have hS := hA.2.2.2.2
            rw [hanext] at hS
            exact seg_frame g.mem _ hi S _ 0
              (fun x hx => by rw [hsame x (List.mem_append_right _ hx)]; exact ⟨rfl, rfl⟩) hS
    · rw [hmna]; simp only; rw [hsz]; omega

/-! ### The three ways `malloc` obtains a block -/

theorem seg_tighten {mem : Nat → meta_block} {hi a c z : Nat} {R : List Nat}
    (h : Seg mem hi a (R ++ [c]) z) :
    Seg mem (c + META_SIZE + (mem c).size) a (R ++ [c]) z := by
  obtain ⟨h1, h2⟩ := (seg_append mem hi R [c] a z).mp h
  apply (seg_append mem _ R [c] a z).mpr
  simp only [List.headD_cons] at h1 h2 ⊢
  obtain ⟨e1, e2, e3, _, e5⟩ := h2
  exact ⟨h1, e1, e2, e3, Nat.le_refl _, e5⟩

theorem headD_le_hi {mem : Nat → meta_block} {hi a z : Nat} {S : List Nat}
    (h : Seg mem hi a S z) : S.headD hi ≤ hi := by
  cases S with
  | nil => exact Nat.le_refl _
  | cons s S =>
    have := (seg_bounds mem hi _ _ _ h s (by simp)).2.2
    simp only [List.headD_cons]
    omega

theorem nofit_left {mem : Nat → meta_block} {n : Nat} {V W : List Nat}
    (h : NoFit mem n (V ++ W)) : NoFit mem n V := by
  intro A X B hsplit hX hfree
  exact h A X (B ++ W) (by rw [hsplit]; simp) hX hfree

/-- More of what the layout says about a `Walk`: the blocks before the run, and the run
ends where its last block ends. -/
theorem walk_layout {mem : Nat → meta_block} {n hi base : Nat} {L : List Nat} {st : find_state}
    {P R : List Nat} {c : Nat} {S : List Nat}
    (hseg : Seg mem hi base L 0) (hW : Walk mem n L st P R c S) :
    Seg mem st.res base P st.res ∧
      st.res + META_SIZE + run_bytes mem (R ++ [c]) ≤ c + META_SIZE + (mem c).size ∧
      S.headD hi ≤ hi ∧ (∀ x ∈ P, x < st.res) ∧
      (∀ x ∈ S, c + META_SIZE + (mem c).size ≤ x) ∧ st.res ∈ L ∧ c ∈ L := by
  obtain ⟨h2, h3, _, _, hext, _, _, _⟩ := walk_facts hseg hW
  have hL : L = P ++ ((R ++ [c]) ++ S) := by rw [hW.split]; simp
  have hseg' := hseg
  rw [hL] at hseg'
  have h1 := ((seg_append mem hi P _ base 0).mp hseg').1
  rw [headD_append, headD_concat, headD_append, headD_concat, ← hW.res] at h1
  have hP : ∀ x ∈ P, x < st.res := by
    intro x hx
    have := (seg_bounds mem _ _ _ _ h1 x hx).2.2
    unfold META_SIZE at this
    omega
  have hS : ∀ x ∈ S, c + META_SIZE + (mem c).size ≤ x := by
    intro x hx
    cases S with
    | nil => cases hx
    | cons s S =>
      simp only [List.headD_cons] at hext h3
      have := (seg_bounds mem _ _ _ _ h3 x hx).1
      omega
  refine ⟨h1, seg_run_le mem _ _ _ _ (seg_tighten h2) (by simp), headD_le_hi h3, hP, hS, ?_, ?_⟩
  · rw [hW.split, hW.res]
    cases R <;> simp
  · rw [hW.split]; simp

/-- The reuse path of `malloc`: the run found by `find_free_block` is merged into its
anchor, the anchor is marked allocated and split. -/
theorem found_post {h h' : Heap} {L : List Nat} {n : Nat} {st : find_state}
    {P R : List Nat} {c : Nat} {S : List Nat}
    (hWF : WF h L) (hn : 0 < n) (hF : Found h.mem n L st P R c S)
    (hs : split_block
      (mark_allocated
        (set_block h (R.headD c)
          { h.mem (R.headD c) with next := (h.mem c).next, size := st.block_size,
                                   magic := 0x12344321 })
        (R.headD c))
      (R.headD c) st.block_size n = .ok h') :
    ∃ T, AllocPost h L n (R.headD c + META_SIZE) h' (P ++ R.headD c :: T) P (R.headD c) T ∧
      h'.brk = h.brk ∧ h'.os_log = h.os_log ∧ R.headD c ∈ L ∧ c ∈ L ∧ R.headD c ≤ c ∧
      R.headD c + META_SIZE + n ≤ c + META_SIZE + (h.mem c).size := by
  obtain ⟨hseg, hbrk0, hbrk⟩ := hWF
  obtain ⟨hW, hcf, hle⟩ := hF
  obtain ⟨h2, h3, hcpos, hnext, hext, hrun, hac, hapos⟩ := walk_facts hseg hW
  obtain ⟨hP, hrun2, hShi, hPlt, hSgt, haL, hcL⟩ := walk_layout hseg hW
  have hres := hW.res
  generalize R.headD c = a at *
  rw [hres] at h2 hrun hac hapos hP hrun2 hPlt haL
  have hbs : st.block_size = run_bytes h.mem (R ++ [c]) := by
    rcases hW.run with ⟨_, hnf, _⟩ | ⟨_, hb⟩
    · rw [hcf] at hnf; cases hnf
    · exact hb
  have hSgt' : ∀ x ∈ S, a + META_SIZE + st.block_size ≤ x := by
    intro x hx
    have := hSgt x hx
    omega
  -- the heap after the merge and the two assignments of `malloc`
  generalize hg : mark_allocated
        (set_block h a
          { h.mem a with next := (h.mem c).next, size := st.block_size, magic := 0x12344321 })
        a = g at hs
  have hga : g.mem a =
      { size := st.block_size, next := (h.mem c).next, is_free := false, magic := 0x77777777 } := by
    rw [← hg]
    simp [mark_allocated, store_same]
  have hgo : ∀ x, x ≠ a → g.mem x = h.mem x := by
    intro x hx
    rw [← hg]
    simp [mark_allocated, store_other _ _ _ _ hx]
  have hgb : g.brk = h.brk ∧ g.os_log = h.os_log ∧ g.global_base = h.global_base := by
    rw [← hg]; exact ⟨rfl, rfl, rfl⟩
  have hgseg : Seg g.mem h.brk h.global_base (P ++ a :: S) 0 := by
    apply (seg_append g.mem h.brk P (a :: S) h.global_base 0).mpr
    simp only [List.headD_cons]
    constructor
    · refine seg_frame h.mem _ a P _ a (fun x hx => ?_) hP
      have := hPlt x hx
      rw [hgo x (by omega)]
      exact ⟨rfl, rfl⟩
    · refine ⟨rfl, hapos, by rw [hga]; simp only; omega, by rw [hga]; simp only; omega, ?_⟩
      rw [hga]
      simp only
      rw [hnext]
      refine seg_frame h.mem _ h.brk S _ 0 (fun x hx => ?_) h3
      have := hSgt' x hx
      rw [hgo x (by unfold META_SIZE at this; omega)]
      exact ⟨rfl, rfl⟩
  obtain ⟨e1, e2, e3, e4, e5, T, hT, hsame, hTS⟩ :=
    split_block_wf hgseg hbrk (by rw [hga]) hn hs
  have hLsplit : L = P ++ (R ++ c :: S) := by rw [hW.split]; simp
  refine ⟨T, ⟨⟨?_, by rw [e1, hgb.1]; exact hbrk0, by rw [e1, hgb.1]; exact hbrk⟩, rfl, rfl,
    ⟨_, hLsplit⟩, ?_, e4, hW.pred hcf, nofit_left hW.nofit, ?_⟩,
    by rw [e1, hgb.1], by rw [e2, hgb.2.1], haL, hcL, hac, by omega⟩
  · unfold Blocks
    rw [e1, e3, hgb.1, hgb.2.2]
    exact hT
  · intro x hx
    have := hPlt x hx
    rw [hsame x (List.mem_append_left _ hx), hgo x (by omega)]
    exact ⟨rfl, rfl⟩
  · intro x hx hxa hxf
    have hxPS : x ∈ P ++ S := by
      rcases List.mem_append.mp hx with hx | hx
      · exact List.mem_append_left _ hx
      · rcases List.mem_cons.mp hx with hx | hx
        · exact absurd hx hxa
        · rcases hTS with hTS | ⟨na, hTS, hnaf, _⟩
          · rw [hTS] at hx; exact List.mem_append_right _ hx
          · rw [hTS] at hx
            rcases List.mem_cons.mp hx with hx | hx
            · rw [hx, hnaf] at hxf; cases hxf
            · exact List.mem_append_right _ hx
    rw [hsame x hxPS, hgo x hxa] at hxf
    refine ⟨?_, hxf⟩
    rw [hLsplit]
    rcases List.mem_append.mp hxPS with hx | hx
    · exact List.mem_append_left _ hx
    · exact List.mem_append_right _ (List.mem_append_right _ (List.mem_cons_of_mem _ hx))

/-- The arithmetic of `request_space` when the request fits below `ADDR_LIMIT`. -/
theorem request_arith {brk n bs : Nat} (hfit : brk + n + 32 < ADDR_LIMIT) (hbs : bs < n) :
    ∃ ns, ns = (wsub n bs + ALIGN_OFFSET (wsub n bs)) % WORD ∧
      (ns + META_SIZE) % WORD = ns + META_SIZE ∧ (brk + (ns + META_SIZE)) % WORD = brk + ns + META_SIZE ∧
      n - bs < ns ∧ ns ≤ n - bs + 8 ∧ (n + ALIGN_OFFSET n) % WORD = n + ALIGN_OFFSET n ∧
      n < n + ALIGN_OFFSET n ∧ ALIGN_OFFSET n ≤ 8 := by
  have h1 : wsub n bs = n - bs :=
    wsub_eq n bs (by omega) (by unfold ADDR_LIMIT WORD at *; omega)
  refine ⟨_, rfl, ?_⟩
  rw [h1]
  unfold ALIGN_OFFSET ALIGN META_SIZE WORD ADDR_LIMIT at *
  omega

/-- An exhausted search seen as a `Walk` that stands on the last block. -/
theorem exhausted_walk {mem : Nat → meta_block} {n : Nat} {L : List Nat} {st : find_state}
    {P R : List Nat} {c : Nat} (hE : Exhausted mem n L st P R c) :
    Walk mem n L { st with curr := c, res := R.headD c } P R c [] :=
  ⟨hE.split, rfl, rfl, hE.run, hE.pred,
    nofit_left (by have := hE.nofit; rw [hE.split] at this; exact this)⟩

/-- The growth path of `malloc` after an exhausted search: either `sbrk` refuses and
nothing but the OS log changes, or the trailing free run is extended in place, or a new
block is appended at the old break. -/
theorem grow_post {os_ok : Bool} {h h1 : Heap} {L : List Nat} {n b : Nat} {st : find_state}
    {P R : List Nat} {c : Nat}
    (hWF : WF h L) (hfit : h.brk + n + 32 < ADDR_LIMIT)
    (hE : Exhausted h.mem n L st P R c)
    (hrs : request_space os_ok h (R.headD c) st.block_size n = .ok (b, h1)) :
    (b = 0 ∧ h1.mem = h.mem ∧ h1.brk = h.brk ∧ h1.global_base = h.global_base ∧
      h1.data = h.data) ∨
    (b ≠ 0 ∧ h1.global_base = h.global_base ∧
      ∃ L' P', AllocPost h L n (b + META_SIZE) h1 L' P' b []) := by
  obtain ⟨hseg, hbrk0, hbrk⟩ := hWF
  have hW := exhausted_walk hE
  obtain ⟨h2, _, hcpos, _, hext, hrun, hac, hapos⟩ := walk_facts hseg hW
  obtain ⟨hP, hrun2, _, hPlt, _, haL, hcL⟩ := walk_layout hseg hW
  simp only [List.headD_nil] at h2 hext hrun hP hPlt hapos hac hrun2 haL
  obtain ⟨_, _, ns, r, hns, hr, hcase⟩ := request_space_inv hrs
  obtain ⟨ns', hns', ha1, ha2, ha3, ha4, ha5, ha6, ha7⟩ := request_arith hfit hE.small
  rw [← hns] at hns'
  have hns2 : ns = ns' := hns'.symm
  subst hns2
  have hfail : h.brk ≠ SBRK_FAILED := by unfold SBRK_FAILED WORD ADDR_LIMIT at *; omega
  have hincr : (ns + META_SIZE) % WORD ≠ 0 := by rw [ha1]; unfold META_SIZE; omega
  have hr1 : r.1 ≠ SBRK_FAILED → r.1 = h.brk ∧ r.2.brk = h.brk + ns + META_SIZE := by
    intro hne
    rcases sbrk_pair os_ok h ((ns + META_SIZE) % WORD) with ⟨_, _, e1, _, _⟩ | ⟨_, e1, e2, _⟩
    · rw [← hr] at e1; exact absurd e1 hne
    · rw [← hr] at e1 e2
      rw [if_neg hincr, ha1, ha2] at e2
      exact ⟨e1, e2⟩
  have hr2 : r.2.mem = h.mem ∧ r.2.global_base = h.global_base ∧ r.2.data = h.data := by
    rw [hr]; simp
  have hLsplit : L = P ++ (R ++ [c]) := by rw [hE.split]; simp
  rcases hcase with ⟨hf, hb, hh⟩ | ⟨hf, hbs, hl, _, hb, hh⟩ | ⟨hf, hbs, _, hb, hh⟩
  · left
    subst hh
    refine ⟨hb, hr2.1, ?_, hr2.2.1, hr2.2.2⟩
    rcases sbrk_pair os_ok h ((ns + META_SIZE) % WORD) with ⟨_, _, _, e2, _⟩ | ⟨_, e1, _, _⟩
    · rw [← hr] at e2; exact e2
    · rw [← hr] at e1; rw [e1] at hf; exact absurd hf hfail
  · -- the trailing free run is extended in place
    right
    obtain ⟨_, hbrk'⟩ := hr1 hf
    have hrunb : all_free h.mem (R ++ [c]) ∧ st.block_size = run_bytes h.mem (R ++ [c]) := by
      rcases hE.run with ⟨_, _, h0⟩ | hb'
      · exact absurd h0 hbs
      · exact hb'
    have hcf : (h.mem c).is_free = true := hrunb.1 c (by simp)
    subst hb
    generalize R.headD c = a at *
    have hma : h1.mem a = { h.mem a with size := (n + ALIGN_OFFSET n) % WORD, next := 0 } := by
      rw [hh]; simp [store_same]
    have hmo : ∀ x, x ≠ a → h1.mem x = h.mem x := by
      intro x hx
      rw [hh]; simp [store_other _ _ _ _ hx, hr2.1]
    have hb1 : h1.brk = h.brk + ns + META_SIZE := by rw [hh]; exact hbrk'
    refine ⟨hl, by rw [hh]; exact hr2.2.1, P ++ [a], P,
      ⟨⟨?_, by omega, by rw [hb1]; unfold META_SIZE ADDR_LIMIT at *; omega⟩, rfl, rfl,
        ⟨_, hLsplit⟩, ?_, by rw [hma]; simp only; omega, hE.pred hcf,
        nofit_left (by have := hE.nofit; rw [hLsplit] at this; exact this), ?_⟩⟩
    · unfold Blocks
      have hgb : h1.global_base = h.global_base := by rw [hh]; exact hr2.2.1
      rw [hgb]
      apply (seg_append h1.mem h1.brk P [a] h.global_base 0).mpr
      simp only [List.headD_cons]
      constructor
      · refine seg_frame h.mem _ a P _ a (fun x hx => ?_) hP
        have := hPlt x hx
        rw [hmo x (by omega)]
        exact ⟨rfl, rfl⟩
      · refine ⟨rfl, hapos, ?_, ?_, ?_⟩
        · rw [hma]; simp only; omega
        · rw [hma, hb1]; simp only [List.headD_nil]; unfold META_SIZE at *; omega
        · rw [hma]; rfl
    · intro x hx
      have := hPlt x hx
      rw [hmo x (by omega)]
      exact ⟨rfl, rfl⟩
    · intro x hx hxa hxf
      rcases List.mem_append.mp hx with hx | hx
      · rw [hmo x hxa] at hxf
        exact ⟨by rw [hLsplit]; exact List.mem_append_left _ hx, hxf⟩
      · simp only [List.mem_singleton] at hx
        exact absurd hx hxa
  · -- a new block is appended at the old break
    right
    obtain ⟨_, hbrk'⟩ := hr1 hf
    have hruna : R = [] ∧ (h.mem c).is_free = false := by
      rcases hE.run with ⟨hR, hnf, _⟩ | ⟨_, hb'⟩
      · exact ⟨hR, hnf⟩
      · exfalso
        have hsz := (seg_bounds h.mem _ _ _ _ h2 c (by simp))
        have h4 := ((seg_append h.mem h.brk R [c] _ 0).mp h2).2
        have hpos : 0 < (h.mem c).size := h4.2.2.1
        have := run_bytes_suffix_le h.mem [c] R
        simp only [run_bytes] at this
        omega
    obtain ⟨hR, hnf⟩ := hruna
    subst hR
    simp only [List.headD_nil, List.nil_append, List.append_nil] at *
    subst hb
    have hcb : c ≠ h.brk := by unfold META_SIZE at hext; omega
    rw [if_pos (by omega : c ≠ 0)] at hh
    have hmb : h1.mem h.brk =
        { size := ns, is_free := true, next := 0, magic := 0x12345678 } := by
      rw [hh]; simp [store_same]
    have hmc : h1.mem c = { h.mem c with next := h.brk } := by
      rw [hh]; simp [store_other _ _ _ _ hcb, store_same]
    have hmo : ∀ x, x ≠ c → x ≠ h.brk → h1.mem x = h.mem x := by
      intro x hx1 hx2
      rw [hh]; simp [store_other _ _ _ _ hx1, store_other _ _ _ _ hx2, hr2.1]
    have hb1 : h1.brk = h.brk + ns + META_SIZE := by rw [hh]; exact hbrk'
    have hPb : ∀ x ∈ P, x ≠ c ∧ x ≠ h.brk := by
      intro x hx
      have := hPlt x hx
      omega
    refine ⟨by omega, by rw [hh]; exact hr2.2.1, (P ++ [c]) ++ [h.brk], P ++ [c],
      ⟨⟨?_, by omega, by rw [hb1]; unfold META_SIZE ADDR_LIMIT at *; omega⟩, rfl, rfl,
        ⟨[], by rw [hE.split]; simp⟩, ?_, by rw [hmb]; simp only; omega, ?_,
        (by have := hE.nofit; rw [hE.split] at this; simpa using this), ?_⟩⟩
    · unfold Blocks
      have hgb : h1.global_base = h.global_base := by rw [hh]; exact hr2.2.1
      rw [hgb]
      apply (seg_append h1.mem h1.brk (P ++ [c]) [h.brk] h.global_base 0).mpr
      simp only [List.headD_cons]
      constructor
      · apply (seg_append h1.mem h.brk P [c] h.global_base h.brk).mpr
        simp only [List.headD_cons]
        constructor
        · refine seg_frame h.mem _ c P _ c (fun x hx => ?_) hP
          rw [hmo x (hPb x hx).1 (hPb x hx).2]
          exact ⟨rfl, rfl⟩
        · have h4 := ((seg_append h.mem h.brk [] [c] _ 0).mp h2).2
          refine ⟨rfl, hcpos, ?_, ?_, ?_⟩
          · rw [hmc]; exact h4.2.2.1
          · rw [hmc]; simp only [List.headD_nil]; exact hext
          · rw [hmc]; rfl
      · refine ⟨rfl, hbrk0, ?_, ?_, ?_⟩
        · rw [hmb]; simp only; omega
        · rw [hmb, hb1]; simp only [List.headD_nil]; omega
        · rw [hmb]; rfl
    · intro x hx
      rcases List.mem_append.mp hx with hx | hx
      · rw [hmo x (hPb x hx).1 (hPb x hx).2]
        exact ⟨rfl, rfl⟩
      · simp only [List.mem_singleton] at hx
        subst hx
        rw [hmc]
        exact ⟨rfl, rfl⟩
    · intro x hx
      have : x = c := by simpa using hx.symm
      subst this
      exact hnf
    · intro x hx hxa hxf
      rcases List.mem_append.mp hx with hx | hx
      · refine ⟨by rw [hE.split]; simpa using hx, ?_⟩
        rcases List.mem_append.mp hx with hx | hx
        · rw [hmo x (hPb x hx).1 (hPb x hx).2] at hxf
          exact hxf
        · simp only [List.mem_singleton] at hx
          subst hx
          exact hnf
      · simp only [List.mem_singleton] at hx
        exact absurd hx hxa

theorem blocks_nil_of_base {h : Heap} {L : List Nat} (hB : Blocks h L) (hb : h.global_base = 0) :
    L = [] := by
  cases L with
  | nil => rfl
  | cons x L =>
    have h1 : h.global_base = x := hB.1
    have h2 : 0 < x := hB.2.1
    omega

theorem blocks_base_ne {h : Heap} {L : List Nat} (hB : Blocks h L) (hb : h.global_base ≠ 0) :
    L ≠ [] := by
  intro hL
  subst hL
  exact hb hB

/-- The first allocation: the heap is seeded with one block at the old break. -/
theorem seed_post {os_ok : Bool} {h h1 : Heap} {n b : Nat}
    (hWF : WF h []) (hfit : h.brk + n + 32 < ADDR_LIMIT) (hn : 0 < n)
    (hrs : request_space os_ok h 0 0 n = .ok (b, h1)) :
    (b = 0 ∧ h1.mem = h.mem ∧ h1.brk = h.brk ∧ h1.global_base = h.global_base ∧
      h1.data = h.data) ∨
    (b ≠ 0 ∧ AllocPost h [] n (b + META_SIZE) { h1 with global_base := b } [b] [] b []) := by
  obtain ⟨_, hbrk0, hbrk⟩ := hWF
  obtain ⟨_, _, ns, r, hns, hr, hcase⟩ := request_space_inv hrs
  obtain ⟨ns', hns', ha1, ha2, ha3, ha4, ha5, ha6, ha7⟩ := request_arith hfit hn
  rw [← hns] at hns'
  have hns2 : ns = ns' := hns'.symm
  subst hns2
  have hfail : h.brk ≠ SBRK_FAILED := by unfold SBRK_FAILED WORD ADDR_LIMIT at *; omega
  have hincr : (ns + META_SIZE) % WORD ≠ 0 := by rw [ha1]; unfold META_SIZE; omega
  have hr2 : r.2.mem = h.mem ∧ r.2.global_base = h.global_base ∧ r.2.data = h.data := by
    rw [hr]; simp
  rcases hcase with ⟨hf, hb, hh⟩ | ⟨_, hbs, _⟩ | ⟨hf, _, _, hb, hh⟩
  · left
    subst hh
    refine ⟨hb, hr2.1, ?_, hr2.2.1, hr2.2.2⟩
    rcases sbrk_pair os_ok h ((ns + META_SIZE) % WORD) with ⟨_, _, _, e2, _⟩ | ⟨_, e1, _, _⟩
    · rw [← hr] at e2; exact e2
    · rw [← hr] at e1; rw [e1] at hf; exact absurd hf hfail
  · exact absurd rfl hbs
  · right
    have hbrk' : r.2.brk = h.brk + ns + META_SIZE := by
      rcases sbrk_pair os_ok h ((ns + META_SIZE) % WORD) with ⟨_, _, e1, _, _⟩ | ⟨_, _, e2, _⟩
      · rw [← hr] at e1; exact absurd e1 hf
      · rw [← hr] at e2
        rw [if_neg hincr, ha1, ha2] at e2
        exact e2
    subst hb
    simp only [ne_eq, not_true_eq_false, if_false] at hh
    have hmb : h1.mem h.brk =
        { size := ns, is_free := true, next := 0, magic := 0x12345678 } := by
      rw [hh]; simp [store_same]
    have hb1 : h1.brk = h.brk + ns + META_SIZE := by rw [hh]; exact hbrk'
    have hw2 : 0 < h1.brk := by omega
    have hw3 : h1.brk < ADDR_LIMIT := by rw [hb1]; unfold META_SIZE ADDR_LIMIT at *; omega
    have hsz : n ≤ (h1.mem h.brk).size := by rw [hmb]; simp only; omega
    refine ⟨by omega, ⟨?_, hw2, hw3⟩, rfl, rfl, ⟨[], rfl⟩, (fun x hx => by cases hx), hsz,
      (fun x hx => by cases hx), ?_, ?_⟩
    · show Seg h1.mem h1.brk h.brk [h.brk] 0
      refine ⟨rfl, hbrk0, ?_, ?_, ?_⟩
      · rw [hmb]; simp only; omega
      · rw [hmb, hb1]; simp only [List.headD_nil]; omega
      · rw [hmb]; rfl
    · intro A X B hsplit hX _
      exfalso
      apply hX
      have h1 : A ++ X ++ B = [] := by simpa using hsplit.symm
      simp only [List.append_eq_nil] at h1
      exact h1.1.2
    · intro x hx hxa _
      simp only [List.mem_singleton] at hx
      exact absurd hx hxa

/-- What `malloc(n)` does to a well-formed heap when the request fits below `ADDR_LIMIT`
and the fuel covers the block list. -/
theorem malloc_post {fuel : Nat} {os_ok : Bool} {h h' : Heap} {L : List Nat} {n p : Nat}
    (hWF : WF h L) (hn : 0 < n) (hfit : h.brk + n + 32 < ADDR_LIMIT) (hfuel : L.length ≤ fuel)
    (hm : malloc fuel os_ok h n = .ok (p, h')) :
    (p = 0 ∧ h'.mem = h.mem ∧ h'.brk = h.brk ∧ h'.global_base = h.global_base ∧
      h'.data = h.data) ∨
    (p ≠ 0 ∧ ∃ L' P a T, AllocPost h L n p h' L' P a T) := by
  have hWF' := hWF
  obtain ⟨hseg, hbrk0, hbrk⟩ := hWF
  have hmod : ∀ b, b < ADDR_LIMIT → (b + META_SIZE) % WORD = b + META_SIZE := by
    intro b hb; unfold META_SIZE WORD ADDR_LIMIT at *; omega
  rcases malloc_inv hm with ⟨h0, _, _⟩ | ⟨_, hb0, b, h1, hrs, hcase⟩ | ⟨_, hb0, r, hf, hcase⟩
  · omega
  · have hL := blocks_nil_of_base hseg hb0
    subst hL
    rcases seed_post hWF' hfit hn hrs with ⟨hb, e1, e2, e3, e4⟩ | ⟨hb, hpost⟩
    · rcases hcase with ⟨_, hp, hh⟩ | ⟨hb', _, _⟩
      · subst hh; exact Or.inl ⟨hp, e1, e2, e3, e4⟩
      · exact absurd hb hb'
    · rcases hcase with ⟨hb', _, _⟩ | ⟨_, hp, hh⟩
      · exact absurd hb' hb
      · have hblt : b < ADDR_LIMIT := by
          have := hpost.wf.1
          have h3 : b + META_SIZE + (h1.mem b).size ≤ h1.brk := this.2.2.2.1
          have h4 : h1.brk < ADDR_LIMIT := hpost.wf.2.2
          omega
        rw [hmod b hblt] at hp
        subst hh hp
        exact Or.inr ⟨by unfold META_SIZE; omega, _, _, _, _, hpost⟩
  · obtain ⟨r', st, hf', hbs, hcase2⟩ :=
      find_free_block_spec h.global_base fuel hseg
        (by unfold WORD ADDR_LIMIT at *; omega) hn hb0 hfuel
    rw [hf] at hf'
    cases hf'
    rcases hcase with ⟨hr0, b, h1, hrs, hc2⟩ | ⟨hr0, hp, hs⟩
    · rcases hcase2 with ⟨P, R, c, S, hF, hblk, _⟩ | ⟨P, R, c, hE, _, hlast, hheap⟩
      · exfalso
        have := (walk_facts hseg hF.1).2.2.2.2.2.2.2
        rw [hF.1.res, ← hblk] at this
        omega
      · rw [hheap, hlast, hbs] at hrs
        rcases grow_post hWF' hfit hE hrs with ⟨hb, e1, e2, e3, e4⟩ | ⟨hb, _, L', P', hpost⟩
        · rcases hc2 with ⟨_, hp, hh⟩ | ⟨hb', _, _⟩
          · subst hh; exact Or.inl ⟨hp, e1, e2, e3, e4⟩
          · exact absurd hb hb'
        · rcases hc2 with ⟨hb', _, _⟩ | ⟨_, hp, hh⟩
          · exact absurd hb' hb
          · have hblt : b < ADDR_LIMIT := by
              have hbL : b ∈ L' := by rw [hpost.list]; simp
              have := (seg_bounds _ _ _ _ _ hpost.wf.1 b hbL).2.2
              have h4 : h1.brk < ADDR_LIMIT := hpost.wf.2.2
              omega
            rw [hmod b hblt] at hp
            subst hh hp
            exact Or.inr ⟨by unfold META_SIZE; omega, _, _, _, _, hpost⟩
    · rcases hcase2 with ⟨P, R, c, S, hF, hblk, hheap⟩ | ⟨_, _, _, _, hblk, _⟩
      · rw [hheap, hblk, hbs] at hs
        obtain ⟨T, hpost, _⟩ := found_post hWF' hn hF hs
        have hblt : R.headD c < ADDR_LIMIT := by
          have hbL : R.headD c ∈ P ++ R.headD c :: T := by simp
          have := (seg_bounds _ _ _ _ _ hpost.wf.1 _ hbL).2.2
          have h4 : h'.brk < ADDR_LIMIT := hpost.wf.2.2
          omega
        rw [hblk, hmod _ hblt] at hp
        subst hp
        exact Or.inr ⟨by unfold META_SIZE; omega, _, _, _, _, hpost⟩
      · exact absurd hblk hr0

/-! ### More fuel does not change a result -/

theorem find_loop_mono (mem : Nat → meta_block) (n : Nat) :
    ∀ (fuel : Nat) (st st' : find_state) (fuel' : Nat),
      find_loop mem n fuel st = .ok st' → fuel ≤ fuel' → find_loop mem n fuel' st = .ok st' := by
  intro fuel
  induction fuel with
  | zero =>
    intro st st' fuel' h _
    have hg := find_loop_guard mem n 0 st st' h
    simp only [find_loop] at h
    split at h
    · cases h
    · cases h
      exact find_loop_stop mem n fuel' st hg
  | succ k ih =>
    intro st st' fuel' h hle
    cases hgs : find_guard mem n st with
    | false =>
      rw [find_loop_stop mem n (k + 1) st hgs] at h
      rw [find_loop_stop mem n fuel' st hgs]
      exact h
    | true =>
      rw [find_loop_go mem n k st hgs] at h
      obtain ⟨k', rfl⟩ : ∃ k', fuel' = k' + 1 := ⟨fuel' - 1, by omega⟩
      rw [find_loop_go mem n k' st hgs]
      exact ih _ _ k' h (by omega)

theorem find_free_block_mono {fuel fuel' : Nat} {h : Heap} {last n : Nat} {r : find_result}
    (hf : find_free_block fuel h last n = .ok r) (hle : fuel ≤ fuel') :
    find_free_block fuel' h last n = .ok r := by
  obtain ⟨st, hst, _⟩ := find_free_block_inv hf
  have hst' := find_loop_mono h.mem n fuel _ st fuel' hst hle
  unfold find_free_block at hf ⊢
  simp only [hst] at hf
  simp only [hst']
  exact hf

theorem malloc_mono {fuel fuel' : Nat} {os_ok : Bool} {h : Heap} {n p : Nat} {h' : Heap}
    (hm : malloc fuel os_ok h n = .ok (p, h')) (hle : fuel ≤ fuel') :
    malloc fuel' os_ok h n = .ok (p, h') := by
  unfold malloc at hm ⊢
  split
  · rename_i h0
    simp only [h0, if_true] at hm
    exact hm
  · rename_i h0
    simp only [h0, if_false] at hm
    split
    · rename_i hb
      simp only [hb, if_true] at hm
      exact hm
    · rename_i hb
      simp only [hb, if_false] at hm
      cases hf : find_free_block fuel h h.global_base n with
      | error e => rw [hf] at hm; cases hm
      | ok r =>
        rw [hf] at hm
        rw [find_free_block_mono hf hle]
        exact hm

/-- The postcondition of `malloc` for every amount of fuel with which the call returns. -/
theorem malloc_post_any {fuel : Nat} {os_ok : Bool} {h h' : Heap} {L : List Nat} {n p : Nat}
    (hWF : WF h L) (hn : 0 < n) (hfit : h.brk + n + 32 < ADDR_LIMIT)
    (hm : malloc fuel os_ok h n = .ok (p, h')) :
    (p = 0 ∧ h'.mem = h.mem ∧ h'.brk = h.brk ∧ h'.global_base = h.global_base ∧
      h'.data = h.data) ∨
    (p ≠ 0 ∧ ∃ L' P a T, AllocPost h L n p h' L' P a T) :=
  malloc_post hWF hn hfit (Nat.le_max_right fuel L.length)
    (malloc_mono hm (Nat.le_max_left fuel L.length))

/-! ### Invariants of reachable states -/

theorem free_mem (h : Heap) (p : Nat) (hp : p ≠ 0) :
    (free h p).mem = store h.mem (get_block_ptr p)
      { h.mem (get_block_ptr p) with is_free := true, magic := 0xffffffff } ∧
    (free h p).brk = h.brk ∧ (free h p).global_base = h.global_base ∧
    (free h p).os_log = h.os_log ∧ (free h p).data = h.data := by
  unfold free
  rw [if_neg hp]
  exact ⟨rfl, rfl, rfl, rfl, rfl⟩

theorem free_null (h : Heap) : free h 0 = h := by
  simp [free]

theorem free_fields (h : Heap) (p x : Nat) :
    ((free h p).mem x).size = (h.mem x).size ∧ ((free h p).mem x).next = (h.mem x).next ∧
      (x ≠ get_block_ptr p → (free h p).mem x = h.mem x) ∧
      (p ≠ 0 → ((free h p).mem (get_block_ptr p)).is_free = true) := by
  by_cases hp : p = 0
  · subst hp
    rw [free_null]
    exact ⟨rfl, rfl, fun _ => rfl, fun h0 => absurd rfl h0⟩
  · rw [(free_mem h p hp).1]
    by_cases hx : x = get_block_ptr p
    · rw [hx, store_same]
      exact ⟨rfl, rfl, fun h0 => absurd rfl h0, fun _ => rfl⟩
    · rw [store_other _ _ _ _ hx, store_same]
      exact ⟨rfl, rfl, fun _ => rfl, fun _ => rfl⟩

theorem free_wf {h : Heap} {L : List Nat} (p : Nat) (hWF : WF h L) : WF (free h p) L := by
  obtain ⟨hseg, h1, h2⟩ := hWF
  have hb : (free h p).brk = h.brk ∧ (free h p).global_base = h.global_base := by
    by_cases hp : p = 0
    · subst hp; rw [free_null]; exact ⟨rfl, rfl⟩
    · exact ⟨(free_mem h p hp).2.1, (free_mem h p hp).2.2.1⟩
  refine ⟨?_, by rw [hb.1]; exact h1, by rw [hb.1]; exact h2⟩
  unfold Blocks
  rw [hb.1, hb.2]
  exact seg_frame h.mem _ _ L _ 0
    (fun x _ => ⟨(free_fields h p x).1, (free_fields h p x).2.1⟩) hseg

theorem get_block_ptr_payload (a : Nat) (ha : a + META_SIZE < WORD) :
    get_block_ptr (a + META_SIZE) = a := by
  unfold get_block_ptr wsub META_SIZE WORD at *
  omega

theorem live_inv_free {h : Heap} {L live : List Nat} (p : Nat) (hI : LiveInv h L live) :
    LiveInv (free h p) L (live.erase p) := by
  obtain ⟨hWF, hfl⟩ := hI
  refine ⟨free_wf p hWF, fun a ha haf => ?_⟩
  have hbound := (seg_bounds _ _ _ _ _ hWF.1 a ha).2.2
  have hlim := hWF.2.2
  have hgp : get_block_ptr (a + META_SIZE) = a :=
    get_block_ptr_payload a (by unfold META_SIZE WORD ADDR_LIMIT at *; omega)
  by_cases hp : p = 0
  · subst hp
    rw [free_null] at haf
    exact (List.mem_erase_of_ne (by unfold META_SIZE; omega)).mpr (hfl a ha haf)
  · have hne : a ≠ get_block_ptr p := by
      intro e
      have := (free_fields h p a).2.2.2 hp
      rw [← e, haf] at this
      cases this
    rw [(free_fields h p a).2.2.1 hne] at haf
    refine (List.mem_erase_of_ne ?_).mpr (hfl a ha haf)
    intro e
    rw [e] at hgp
    exact hne hgp.symm

/-- A call of `malloc` that returns `NULL` on a well-formed heap has changed nothing but
the OS log, whatever the size of the request. -/
theorem malloc_null_unchanged {fuel : Nat} {os_ok : Bool} {h h' : Heap} {L : List Nat} {n : Nat}
    (hWF : WF h L) (hm : malloc fuel os_ok h n = .ok (0, h')) :
    h'.mem = h.mem ∧ h'.brk = h.brk ∧ h'.global_base = h.global_base ∧ h'.data = h.data := by
  have hWF' := hWF
  obtain ⟨hseg, hbrk0, hbrk⟩ := hWF
  have hm' := malloc_mono hm (Nat.le_max_left fuel L.length)
  have hfail : h.brk ≠ SBRK_FAILED := by unfold SBRK_FAILED WORD ADDR_LIMIT at *; omega
  have hnz : ∀ b, b < ADDR_LIMIT → b ≠ 0 → (b + META_SIZE) % WORD ≠ 0 := by
    intro b hb _; unfold META_SIZE WORD ADDR_LIMIT at *; omega
  have hLlt : ∀ x ∈ L, x < ADDR_LIMIT := by
    intro x hx
    have := (seg_bounds _ _ _ _ _ hseg x hx).2.2
    omega
  -- a `request_space` call that ends with a null result pointer
  have hreq : ∀ (last bs b : Nat) (h1 : Heap), (last = 0 ∨ last < ADDR_LIMIT) →
      request_space os_ok h last bs n = .ok (b, h1) →
      (b = 0 ∨ (b + META_SIZE) % WORD = 0) →
      b = 0 ∧
      h1.mem = h.mem ∧ h1.brk = h.brk ∧ h1.global_base = h.global_base ∧ h1.data = h.data := by
    intro last bs b h1 hlast hrs hb
    obtain ⟨_, _, ns, r, _, hr, hcase⟩ := request_space_inv hrs
    have hr2 : r.2.mem = h.mem ∧ r.2.global_base = h.global_base ∧ r.2.data = h.data := by
      rw [hr]; simp
    rcases hcase with ⟨hf, hbz, hh⟩ | ⟨_, _, hl, _, hbl, _⟩ | ⟨_, _, hb0, hbb, _⟩
    · subst hh
      refine ⟨hbz, hr2.1, ?_, hr2.2.1, hr2.2.2⟩
      rcases sbrk_pair os_ok h ((ns + META_SIZE) % WORD) with ⟨_, _, _, e2, _⟩ | ⟨_, e1, _, _⟩
      · rw [← hr] at e2; exact e2
      · rw [← hr] at e1; rw [e1] at hf; exact absurd hf hfail
    · exfalso
      rcases hb with hb | hb
      · exact hl (hbl ▸ hb)
      · rcases hlast with hlast | hlast
        · exact hl hlast
        · exact hnz b (hbl ▸ hlast) (hbl ▸ hl) hb
    · exfalso
      rcases hb with hb | hb
      · exact hb0 (hbb ▸ hb)
      · exact hnz b (hbb ▸ hbrk) (hbb ▸ hb0) hb
  rcases malloc_inv hm' with ⟨_, _, hh⟩ | ⟨_, _, b, h1, hrs, hcase⟩ | ⟨hn0, hb0, r, hf, hcase⟩
  · subst hh; exact ⟨rfl, rfl, rfl, rfl⟩
  · rcases hcase with ⟨hb, _, hh⟩ | ⟨hbne, hp, hh⟩
    · subst hh; exact (hreq 0 0 b h' (Or.inl rfl) hrs (Or.inl hb)).2
    · exact absurd (hreq 0 0 b h1 (Or.inl rfl) hrs (Or.inr hp.symm)).1 hbne
  · obtain ⟨r', st, hf', _, hcase2⟩ :=
      find_free_block_spec h.global_base (max fuel L.length) hseg
        (by unfold WORD ADDR_LIMIT at *; omega) (by omega : 0 < n) hb0 (Nat.le_max_right _ _)
    rw [hf] at hf'
    cases hf'
    rcases hcase2 with ⟨P, R, c, S, hF, hblk, _⟩ | ⟨P, R, c, hE, hblk, hlast, hheap⟩
    · exfalso
      have hresL := (walk_layout hseg hF.1).2.2.2.2.2.1
      rw [hF.1.res] at hresL
      have hpos := (walk_facts hseg hF.1).2.2.2.2.2.2.2
      rw [hF.1.res] at hpos
      rcases hcase with ⟨hr0, _⟩ | ⟨_, hp, _⟩
      · rw [hblk] at hr0; omega
      · rw [hblk] at hp
        exact hnz _ (hLlt _ hresL) (by omega) hp.symm
    · rcases hcase with ⟨_, b, h1, hrs, hc2⟩ | ⟨hr0, _, _⟩
      · rw [hheap, hlast] at hrs
        have hlastL : R.headD c ∈ L := by
          have := (walk_layout hseg (exhausted_walk hE)).2.2.2.2.2.1
          exact this
        rcases hc2 with ⟨hb, _, hh⟩ | ⟨hbne, hp, hh⟩
        · subst hh
          exact (hreq _ _ b h' (Or.inr (hLlt _ hlastL)) hrs (Or.inl hb)).2
        · subst hh
          exact absurd (hreq _ _ b h' (Or.inr (hLlt _ hlastL)) hrs (Or.inr hp.symm)).1 hbne
      · exact absurd hblk hr0

theorem live_inv_malloc {fuel : Nat} {os_ok : Bool} {h h' : Heap} {L live : List Nat} {n p : Nat}
    (hI : LiveInv h L live) (hfit : p = 0 ∨ h.brk + n + 32 < ADDR_LIMIT)
    (hm : malloc fuel os_ok h n = .ok (p, h')) :
    ∃ L', LiveInv h' L' (if p = 0 then live else p :: live) := by
  obtain ⟨hWF, hfl⟩ := hI
  have hnull : p = 0 → ∃ L', LiveInv h' L' (if p = 0 then live else p :: live) := by
    intro hp
    subst hp
    obtain ⟨e1, e2, e3, _⟩ := malloc_null_unchanged hWF hm
    refine ⟨L, ⟨?_, by rw [e2]; exact hWF.2.1, by rw [e2]; exact hWF.2.2⟩, ?_⟩
    · unfold Blocks; rw [e1, e2, e3]; exact hWF.1
    · rw [if_pos rfl, e1]; exact hfl
  by_cases hp0 : p = 0
  · exact hnull hp0
  have hfit' : h.brk + n + 32 < ADDR_LIMIT := by
    rcases hfit with hfit | hfit
    · exact absurd hfit hp0
    · exact hfit
  by_cases hn : n = 0
  · subst hn
    rw [malloc_size_zero] at hm
    cases hm
    exact absurd rfl hp0
  · rcases malloc_post_any hWF (by omega) hfit' hm with ⟨hp, _⟩ | ⟨hp, L', P, a, T, hpost⟩
    · exact hnull hp
    · refine ⟨L', hpost.wf, fun x hx hxf => ?_⟩
      rw [if_neg hp]
      by_cases hxa : x = a
      · rw [hxa, ← hpost.ptr]; exact List.mem_cons_self _ _
      · obtain ⟨hxL, hxf'⟩ := hpost.flags x hx hxa hxf
        exact List.mem_cons_of_mem _ (hfl x hxL hxf')

/-- Every reachable state is well formed, and its allocated blocks are live. -/
theorem reach_live_inv {b0 : Nat} (hb0 : 0 < b0) (hb1 : b0 < ADDR_LIMIT) {h : Heap}
    {live : List Nat} (hR : Reach ADDR_LIMIT b0 h live) : ∃ L, LiveInv h L live := by
  induction hR with
  | init => exact ⟨[], ⟨rfl, hb0, hb1⟩, fun a ha => by cases ha⟩
  | alloc fuel os_ok n p h' _ _ hfit hm ih =>
    obtain ⟨L, hI⟩ := ih
    exact live_inv_malloc hI hfit hm
  | release p _ _ ih =>
    obtain ⟨L, hI⟩ := ih
    exact ⟨L, live_inv_free p hI⟩

theorem split_block_ok (g : Heap) (a bs n : Nat) (ha : a ≠ 0) (hle : n ≤ bs) :
    ∃ g', split_block g a bs n = .ok g' := by
  unfold split_block
  rw [if_neg ha, if_neg (by omega)]
  simp only
  split
  · exact ⟨_, rfl⟩
  · exact ⟨_, rfl⟩

theorem malloc_found_eq (fuel : Nat) (os_ok : Bool) {h g' : Heap} {n : Nat} {r : find_result}
    (hn : n ≠ 0) (hb : h.global_base ≠ 0)
    (hf : find_free_block fuel h h.global_base n = .ok r) (hr : r.block ≠ 0)
    (hs : split_block (mark_allocated r.heap r.block) r.block r.block_size n = .ok g') :
    malloc fuel os_ok h n = .ok ((r.block + META_SIZE) % WORD, g') := by
  unfold malloc
  rw [if_neg hn, if_neg hb]
  simp only [hf, if_neg hr, hs]

theorem head?_concat (R : List Nat) (c : Nat) : (R ++ [c]).head? = some (R.headD c) := by
  cases R <;> rfl

/-- The bytes of a run are the sizes of its blocks and one header for each block but
the first. -/
theorem run_bytes_eq_sum (mem : Nat → meta_block) :
    ∀ X : List Nat, run_bytes mem X
      = (X.map (fun b => (mem b).size)).sum + (X.length - 1) * META_SIZE
  | [] => rfl
  | [a] => by simp [run_bytes]
  | a :: b :: r => by
    have ih := run_bytes_eq_sum mem (b :: r)
    simp only [run_bytes, List.map_cons, List.sum_cons, List.length_cons] at ih ⊢
    rw [ih]
    have : r.length + 1 + 1 - 1 = (r.length + 1 - 1) + 1 := by omega
    rw [this, Nat.add_mul]
    omega

theorem getLast?_concat (R : List Nat) (c : Nat) : (R ++ [c]).getLast? = some c := by
  simp

/-- C13: on a well-formed block list in which some run of consecutive free blocks holds
`n > 0` bytes, `find_free_block` returns the first block `a` of a run `X` of free blocks
that starts right after an allocated block (or at the head of the list), holds `n` bytes,
and is the earliest and shortest such: no run of free blocks among the blocks before the
last block `bk` of `X` holds `n` bytes.  Afterwards `a.size` is the sum of the sizes of
`X` plus one header for each block but the first, `a.next` is the former `next` of `bk`,
`*block_size` equals `a.size`, and no header other than that of `a` has changed. -/
theorem find_free_block_first_fit (h : Heap) (L : List Nat) (n last fuel : Nat)
    (hWF : WF h L) (hn : 0 < n) (hfuel : L.length ≤ fuel)
    (A F B : List Nat) (hsplit : L = A ++ F ++ B) (hF : F ≠ []) (hfree : all_free h.mem F)
    (hbytes : n ≤ run_bytes h.mem F) :
    ∃ r P X S a bk, find_free_block fuel h last n = .ok r ∧
      L = P ++ X ++ S ∧ X.head? = some a ∧ X.getLast? = some bk ∧ all_free h.mem X ∧
      (∀ x, P.getLast? = some x → (h.mem x).is_free = false) ∧
      n ≤ run_bytes h.mem X ∧ NoFit h.mem n (P ++ X.dropLast) ∧
      r.block = a ∧ r.block_size = run_bytes h.mem X ∧
      (r.heap.mem a).size = run_bytes h.mem X ∧
      run_bytes h.mem X
        = (X.map (fun b => (h.mem b).size)).sum + (X.length - 1) * META_SIZE ∧
      (r.heap.mem a).next = (h.mem bk).next ∧
      (r.heap.mem a).is_free = (h.mem a).is_free ∧
      (∀ x, x ≠ a → r.heap.mem x = h.mem x) ∧
      r.heap.global_base = h.global_base ∧ r.heap.brk = h.brk ∧
      r.heap.os_log = h.os_log ∧ r.heap.data = h.data := by
  obtain ⟨hseg, hbrk0, hbrk⟩ := hWF
  have hb : h.global_base ≠ 0 := by
    intro hb0
    have hnil := blocks_nil_of_base hseg hb0
    rw [hnil] at hsplit
    have h1 : A ++ F ++ B = [] := hsplit.symm
    simp only [List.append_eq_nil] at h1
    exact hF h1.1.2
  obtain ⟨r, st, hf, hbs, hcase⟩ := find_free_block_spec last fuel hseg
    (by unfold WORD ADDR_LIMIT at *; omega) hn hb hfuel
  rcases hcase with ⟨P, R, c, S, hFound, hblk, hheap⟩ | ⟨P, R, c, hE, _, _, _⟩
  · obtain ⟨hW, hcfree, hnle⟩ := hFound
    have hrun : all_free h.mem (R ++ [c]) ∧ st.block_size = run_bytes h.mem (R ++ [c]) := by
      rcases hW.run with ⟨_, hc, _⟩ | hr
      · rw [hc] at hcfree; cases hcfree
      · exact hr
    have hanchor : (set_block h (R.headD c)
        { h.mem (R.headD c) with next := (h.mem c).next, size := st.block_size,
                                 magic := 0x12344321 }).mem (R.headD c)
        = { h.mem (R.headD c) with next := (h.mem c).next, size := st.block_size,
                                   magic := 0x12344321 } := by
      rw [set_block_mem, store_same]
    refine ⟨r, P, R ++ [c], S, R.headD c, c, hf, ?_, head?_concat R c, getLast?_concat R c,
      hrun.1, hW.pred hcfree, by omega, ?_, hblk, by omega, ?_, run_bytes_eq_sum _ _, ?_, ?_,
      ?_, ?_, ?_, ?_, ?_⟩
    · rw [hW.split]; simp
    · rw [List.dropLast_concat]; exact hW.nofit
    · rw [hheap, hanchor]; exact hrun.2
    · rw [hheap, hanchor]
    · rw [hheap, hanchor]
    · intro x hx
      rw [hheap, set_block_mem, store_other _ _ _ _ hx]
    all_goals rw [hheap]; rfl
  · exfalso
    have := hE.nofit A F B hsplit hF hfree
    omega

theorem demo_heap_two_wf : WF demo_heap_two [4096, 4128, 4160] :=
  ⟨⟨rfl, by decide, by decide, by decide, rfl, by decide, by decide, by decide, rfl, by decide,
      by decide, by decide, rfl⟩, by decide, by decide⟩

/-- Witness for C13: in `demo_heap_two` (4096 allocated; 4128 and 4160 free, 8 and 40
bytes) a request of 50 bytes is served by the run of the two free blocks. -/
theorem find_free_block_first_fit_witness :
    ∃ r P X S a bk, find_free_block 3 demo_heap_two 0 50 = .ok r ∧
      [4096, 4128, 4160] = P ++ X ++ S ∧ X.head? = some a ∧ X.getLast? = some bk ∧
      all_free demo_heap_two.mem X ∧
      (∀ x, P.getLast? = some x → (demo_heap_two.mem x).is_free = false) ∧
      50 ≤ run_bytes demo_heap_two.mem X ∧ NoFit demo_heap_two.mem 50 (P ++ X.dropLast) ∧
      r.block = a ∧ r.block_size = run_bytes demo_heap_two.mem X ∧
      (r.heap.mem a).size = run_bytes demo_heap_two.mem X ∧
      run_bytes demo_heap_two.mem X
        = (X.map (fun b => (demo_heap_two.mem b).size)).sum + (X.length - 1) * META_SIZE ∧
      (r.heap.mem a).next = (demo_heap_two.mem bk).next ∧
      (r.heap.mem a).is_free = (demo_heap_two.mem a).is_free ∧
      (∀ x, x ≠ a → r.heap.mem x = demo_heap_two.mem x) ∧
      r.heap.global_base = demo_heap_two.global_base ∧ r.heap.brk = demo_heap_two.brk ∧
      r.heap.os_log = demo_heap_two.os_log ∧ r.heap.data = demo_heap_two.data :=
  find_free_block_first_fit demo_heap_two [4096, 4128, 4160] 50 0 3 demo_heap_two_wf
    (by decide) (by decide) [4096] [4128, 4160] [] rfl (by decide)
    (by unfold all_free; decide) (by decide)

/-- When `find_free_block` returns `NULL` on a well-formed list, no run of free blocks of
the list holds `n` bytes. -/
theorem nofit_of_null {h : Heap} {L : List Nat} {n last fuel : Nat} {r : find_result}
    (hWF : WF h L) (hn : 0 < n) (hb : h.global_base ≠ 0)
    (hf : find_free_block fuel h last n = .ok r) (hr : r.block = 0) : NoFit h.mem n L := by
  obtain ⟨hseg, hbrk0, hbrk⟩ := hWF
  obtain ⟨r', st, hf', _, hcase⟩ := find_free_block_spec last (max fuel L.length) hseg
    (by unfold WORD ADDR_LIMIT at *; omega) hn hb (Nat.le_max_right _ _)
  rw [find_free_block_mono hf (Nat.le_max_left _ _)] at hf'
  cases hf'
  rcases hcase with ⟨P, R, c, S, hFound, hblk, _⟩ | ⟨P, R, c, hE, _, _, _⟩
  · exfalso
    have := (walk_facts hseg hFound.1).2.2.2.2.2.2.2
    rw [hFound.1.res, ← hblk, hr] at this
    exact Nat.lt_irrefl 0 this
  · exact hE.nofit

/-- C19: on a well-formed, non-empty block list in which no run of free blocks holds
`n > 0` bytes, `find_free_block` returns `NULL` and changes nothing.  With `t` the last
block of the list: if `t` is allocated, `*last = t` and `*block_size = 0`; if `t` is free,
`*last` is the first block of the trailing run `X` of free blocks (the block before `X`,
if any, is allocated) and `*block_size` is the bytes of `X`. -/
theorem find_free_block_exhausted (h : Heap) (L : List Nat) (n last fuel : Nat)
    (hWF : WF h L) (hne : L ≠ []) (hn : 0 < n) (hno : NoFit h.mem n L)
    (hfuel : L.length ≤ fuel) :
    ∃ r P X t, find_free_block fuel h last n = .ok r ∧ r.block = 0 ∧ r.heap = h ∧
      L = P ++ X ∧ X.getLast? = some t ∧ X.head? = some r.last ∧
      (((h.mem t).is_free = false ∧ X = [t] ∧ r.block_size = 0) ∨
       ((h.mem t).is_free = true ∧ all_free h.mem X ∧
        (∀ x, P.getLast? = some x → (h.mem x).is_free = false) ∧
        r.block_size = run_bytes h.mem X ∧
        run_bytes h.mem X
          = (X.map (fun b => (h.mem b).size)).sum + (X.length - 1) * META_SIZE)) := by
  obtain ⟨hseg, hbrk0, hbrk⟩ := hWF
  have hb : h.global_base ≠ 0 := fun hb0 => hne (blocks_nil_of_base hseg hb0)
  obtain ⟨r, st, hf, hbs, hcase⟩ := find_free_block_spec last fuel hseg
    (by unfold WORD ADDR_LIMIT at *; omega) hn hb hfuel
  rcases hcase with ⟨P, R, c, S, hFound, _, _⟩ | ⟨P, R, c, hE, hblk, hlast, hheap⟩
  · exfalso
    obtain ⟨hW, hcfree, hnle⟩ := hFound
    rcases hW.run with ⟨_, hc, _⟩ | ⟨hfree, hsz⟩
    · rw [hc] at hcfree; cases hcfree
    · have := hno P (R ++ [c]) S (by rw [hW.split]; simp) (by simp) hfree
      omega
  · refine ⟨r, P, R ++ [c], c, hf, hblk, hheap, ?_, getLast?_concat R c, ?_, ?_⟩
    · rw [hE.split]; simp
    · rw [hlast]; exact head?_concat R c
    · rcases hE.run with ⟨hR, hc, hz⟩ | ⟨hfree, hsz⟩
      · left
        exact ⟨hc, by rw [hR]; rfl, by omega⟩
      · right
        have hcf : (h.mem c).is_free = true := hfree c (by simp)
        exact ⟨hcf, hfree, hE.pred hcf, by omega, run_bytes_eq_sum _ _⟩

/-- Witness for C19: in `demo_heap_two` no run holds 100 bytes; the search is exhausted
with `*last = 4128`, the first block of the trailing free run, and `*block_size = 72`. -/
theorem find_free_block_exhausted_witness :
    ∃ r P X t, find_free_block 3 demo_heap_two 0 100 = .ok r ∧ r.block = 0 ∧
      r.heap = demo_heap_two ∧
      [4096, 4128, 4160] = P ++ X ∧ X.getLast? = some t ∧ X.head? = some r.last ∧
      (((demo_heap_two.mem t).is_free = false ∧ X = [t] ∧ r.block_size = 0) ∨
       ((demo_heap_two.mem t).is_free = true ∧ all_free demo_heap_two.mem X ∧
        (∀ x, P.getLast? = some x → (demo_heap_two.mem x).is_free = false) ∧
        r.block_size = run_bytes demo_heap_two.mem X ∧
        run_bytes demo_heap_two.mem X
          = (X.map (fun b => (demo_heap_two.mem b).size)).sum
            + (X.length - 1) * META_SIZE)) :=
  find_free_block_exhausted demo_heap_two [4096, 4128, 4160] 100 0 3 demo_heap_two_wf
    (by decide) (by decide)
    (nofit_of_null demo_heap_two_wf (by decide) (by decide)
      (rfl : find_free_block 3 demo_heap_two 0 100 = .ok
        { block := 0, last := 4128, block_size := 72, heap := demo_heap_two }) rfl)
    (by decide)

/-! ## Sizes are multiples of 8 -/

theorem find_loop_size (mem : Nat → meta_block) (n : Nat)
    (hsz : ∀ a, (mem a).size % ALIGN = 0) :
    ∀ (fuel : Nat) (st st' : find_state), find_loop mem n fuel st = .ok st' →
      st.block_size % ALIGN = 0 → st'.block_size % ALIGN = 0 := by
  intro fuel
  induction fuel with
  | zero =>
    intro st st' h h1
    simp only [find_loop] at h
    split at h
    · cases h
    · cases h; exact h1
  | succ k ih =>
    intro st st' h h1
    simp only [find_loop] at h
    split at h
    · refine ih _ _ h ?_
      have hs := hsz (mem st.curr).next
      simp only [find_step]
      unfold ALIGN WORD META_SIZE at *
      split_ifs <;> omega
    · cases h; exact h1

theorem wsub_mod8 (x y : Nat) (hx : x % 8 = 0) (hy : y % 8 = 0) : wsub x y % 8 = 0 := by
  unfold wsub WORD
  omega

theorem set_block_size_inv {g : Heap} (a : Nat) (b : meta_block) (hg : SizeInv g)
    (hb : b.size % ALIGN = 0) : SizeInv (set_block g a b) := by
  intro x
  simp only [set_block_mem, store]
  split
  · exact hb
  · exact hg x

/-- The function `malloc` keeps every `size` a multiple of 8 when the pointers it keeps are
multiples of 8. -/
theorem malloc_size_inv {fuel : Nat} {os_ok : Bool} {h : Heap} {n p : Nat} {h' : Heap}
    (hA : Aligned h) (hS : SizeInv h) (hm : malloc fuel os_ok h n = .ok (p, h')) :
    SizeInv h' := by
  have hal : ∀ x, (x + ALIGN_OFFSET x) % WORD % ALIGN = 0 := by
    intro x; unfold ALIGN_OFFSET ALIGN WORD; omega
  have hsb : ∀ (g : Heap) (x : Nat), SizeInv g →
      SizeInv (sbrk os_ok (sbrk os_ok g 0).2 x).2 := by
    intro g x hg a
    simpa using hg a
  have hreq : ∀ (g : Heap) (last bs b : Nat) (g' : Heap), SizeInv g →
      request_space os_ok g last bs n = .ok (b, g') → SizeInv g' := by
    intro g last bs b g' hg hrs
    obtain ⟨_, _, ns, q, hns, hq, hc⟩ := request_space_inv hrs
    have hq2 : SizeInv q.2 := by rw [hq]; exact hsb g _ hg
    rcases hc with ⟨_, _, hh⟩ | ⟨_, _, _, _, _, hh⟩ | ⟨_, _, _, _, hh⟩
    · rw [hh]; exact hq2
    · rw [hh]; exact set_block_size_inv _ _ hq2 (hal n)
    · rw [hh]
      refine set_block_size_inv _ _ ?_ (by rw [hns]; exact hal _)
      split
      · exact set_block_size_inv _ _ hq2 (hg last)
      · exact hq2
  rcases malloc_inv hm with ⟨_, _, hh⟩ | ⟨_, _, b, h1, hrs, hcase⟩ | ⟨_, _, r, hf, hcase⟩
  · subst hh; exact hS
  · have hq := hreq h 0 0 b h1 hS hrs
    rcases hcase with ⟨_, _, hh⟩ | ⟨_, _, hh⟩
    · subst hh; exact hq
    · subst hh; exact hq
  · obtain ⟨hA1, hA2, hA3⟩ := hA
    have hptr := find_free_block_ptr (fun a => a % ALIGN = 0) hA3 hA1 rfl hf
    obtain ⟨st, hst, _, hbs, hfc⟩ := find_free_block_inv hf
    have hst8 : st.block_size % ALIGN = 0 := by
      refine find_loop_size h.mem n hS fuel _ _ hst ?_
      simp only
      split
      · exact hS _
      · rfl
    have hheap : SizeInv r.heap := by
      rcases hfc with ⟨_, _, _, hh⟩ | ⟨_, _, _, hh⟩
      · rw [hh]; exact set_block_size_inv _ _ hS hst8
      · rw [hh]; exact hS
    rcases hcase with ⟨_, b, h1, hrs, hc2⟩ | ⟨_, _, hs⟩
    · have hq := hreq r.heap r.last r.block_size b h1 hheap hrs
      rcases hc2 with ⟨_, _, hh⟩ | ⟨_, _, hh⟩
      · subst hh; exact hq
      · subst hh; exact hq
    · have hmark : SizeInv (mark_allocated r.heap r.block) := by
        unfold mark_allocated
        exact set_block_size_inv _ _ hheap (hheap _)
      obtain ⟨_, _, na0, af, na, hna0, haf, hna, hsc⟩ := split_block_inv hs
      rcases hsc with ⟨_, hh⟩ | ⟨_, hh⟩
      · rw [hh]; exact hmark
      · rw [hh]
        have haf8 : (n + af) % 8 = 0 := by
          have h1 := (align_factor_spec na0).2.2.1
          rw [← haf] at h1
          have h2 : r.block % 8 = 0 := hptr.1
          rw [hna0] at h1
          unfold META_SIZE WORD at h1
          omega
        have hbs8 : r.block_size % 8 = 0 := by rw [hbs]; exact hst8
        refine set_block_size_inv _ _ (set_block_size_inv _ _ hmark ?_) ?_
        · show wsub (wsub (wsub r.block_size n) af) META_SIZE % 8 = 0
          have e1 : wsub (wsub r.block_size n) af = wsub r.block_size (n + af) := by
            unfold wsub WORD; omega
          rw [e1]
          exact wsub_mod8 _ _ (wsub_mod8 _ _ hbs8 haf8) rfl
        · show (n + af) % WORD % 8 = 0
          unfold WORD; omega

theorem free_size_inv {h : Heap} (p : Nat) (hS : SizeInv h) : SizeInv (free h p) := by
  intro a
  rw [(free_fields h p a).1]
  exact hS a

theorem reach_aligned {lim b0 : Nat} (hb0 : b0 % ALIGN = 0) {h : Heap} {live : List Nat}
    (hR : Reach lim b0 h live) : Aligned h :=
  reach_ptr_inv (fun a => a % ALIGN = 0) rfl (fun b x hb => aligned_brk b x hb)
    (fun x => aligned_split x) hb0 hR

theorem reach_size_inv {lim b0 : Nat} (hb0 : b0 % ALIGN = 0) {h : Heap} {live : List Nat}
    (hR : Reach lim b0 h live) : SizeInv h := by
  induction hR with
  | init => intro a; rfl
  | alloc fuel os_ok n p h' hR' _ _ hm ih => exact malloc_size_inv (reach_aligned hb0 hR') ih hm
  | release p _ _ ih => exact free_size_inv p ih

theorem gap_heap_one_reach : Reach ADDR_LIMIT 4096 gap_heap_one [4120] :=
  Reach.alloc 2 true 16 4120 gap_heap_one
    (Reach.release 4120
      (Reach.alloc 1 true 1 4120 (heap_after_malloc 1 true (empty_heap 4096) 1)
        (Reach.init : Reach ADDR_LIMIT 4096 (empty_heap 4096) []) (by decide)
        (Or.inr (by decide)) rfl)
      (by decide))
    (by decide) (Or.inr (by decide)) rfl

theorem gap_heap_reach : Reach ADDR_LIMIT 4096 gap_heap [4192, 4120] :=
  Reach.alloc 2 true 1 4192 gap_heap
    (Reach.alloc 2 true 16 4120 (heap_after_malloc 2 true (free gap_heap_one 4120) 16)
      (Reach.release 4120 gap_heap_one_reach (by decide))
      (by decide) (Or.inr (by decide)) rfl)
    (by decide) (Or.inr (by decide)) rfl

/-- C14 fails on the code: after `p = malloc(1); free(p); q = malloc(16); free(q);
r = malloc(16); s = malloc(1)` from the empty heap with break 4096 the block list is 4096,
4168; the extension in place of the first block asked `sbrk` for 16 bytes and a header
although it writes no header, so the payload of the block at 4096 ends at 4144, 24 bytes
before the header of its successor at 4168. -/
theorem in_place_extension_leaves_gap :
    Reach ADDR_LIMIT 4096 gap_heap [4192, 4120] ∧ Blocks gap_heap [4096, 4168] ∧
      (gap_heap_one.mem 4096).size = 24 ∧ gap_heap_one.brk = 4168 ∧
      (gap_heap.mem 4096).next = 4168 ∧
      4096 + META_SIZE + (gap_heap.mem 4096).size = 4144 ∧
      4096 + META_SIZE + (gap_heap.mem 4096).size ≠ (gap_heap.mem 4096).next :=
  ⟨gap_heap_reach,
    ⟨rfl, by decide, by decide, by decide, rfl, by decide, by decide, by decide, rfl⟩,
    by decide, by decide, by decide, by decide, by decide⟩

theorem tail_heap_reach : Reach ADDR_LIMIT 4096 tail_heap [] :=
  Reach.release 4120
    (Reach.alloc 1 true 17 4120 (heap_after_malloc 1 true (empty_heap 4096) 17)
      (Reach.init : Reach ADDR_LIMIT 4096 (empty_heap 4096) []) (by decide)
      (Or.inr (by decide)) rfl)
    (by decide)

/-- C18 fails on the code: after `p = malloc(17); free(p)` from the empty heap the list is
one free block of 24 bytes; `malloc(2^64 - 1)` finds no fit and enters `request_space` with
`block_size = 24`, where `size + META_SIZE` has wrapped to 23 and the first assertion,
`size + META_SIZE > block_size`, fails, whatever the fuel and the operating system. -/
theorem assert_fails_on_wrapping_request :
    Reach ADDR_LIMIT 4096 tail_heap [] ∧ (tail_heap.mem 4096).size = 24 ∧
      (WORD - 1 + META_SIZE) % WORD = 23 ∧
      ∀ fuel os_ok, malloc (fuel + 1) os_ok tail_heap (WORD - 1) = .error .assert_failed := by
  refine ⟨tail_heap_reach, by decide, by decide, ?_⟩
  intro fuel os_ok
  have hf : find_free_block (fuel + 1) tail_heap tail_heap.global_base (WORD - 1)
      = .ok { block := 0, last := 4096, block_size := 24, heap := tail_heap } :=
    find_free_block_mono (rfl : find_free_block 1 tail_heap tail_heap.global_base (WORD - 1)
      = .ok { block := 0, last := 4096, block_size := 24, heap := tail_heap }) (Nat.le_add_left 1 fuel)
  unfold malloc
  rw [if_neg (by decide), if_neg (by decide), hf]
  rfl

/-! ## Reuse of the first free block -/

theorem odd_heap_reach : Reach ADDR_LIMIT 4102 odd_heap [] :=
  Reach.release 4126
    (Reach.alloc 2 true 30 4126
      (heap_after_malloc 2 true (free (heap_after_malloc 1 true (empty_heap 4102) 100) 4126) 30)
      (Reach.release 4126
        (Reach.alloc 1 true 100 4126 (heap_after_malloc 1 true (empty_heap 4102) 100)
          (Reach.init : Reach ADDR_LIMIT 4102 (empty_heap 4102) []) (by decide)
          (Or.inr (by decide)) rfl)
        (by decide))
      (by decide) (Or.inr (by decide)) rfl)
    (by decide)

/-- After `x = malloc(34)` on `odd_heap` the first block is allocated and the trailing free
block has 46 bytes; `malloc(100)` finds no fit and enters `request_space` with
`block_size = 46`, where the assertion `block_size % ALIGN == 0` fails. -/
theorem assert_fails_on_unaligned_heap :
    Reach ADDR_LIMIT 4102 (heap_after_malloc 2 true odd_heap 34) [4126] ∧
      find_free_block 3 (heap_after_malloc 2 true odd_heap 34)
          (heap_after_malloc 2 true odd_heap 34).global_base 100
        = .ok { block := 0, last := 4160, block_size := 46,
                heap := heap_after_malloc 2 true odd_heap 34 } ∧
      (100 + META_SIZE) % WORD > 46 ∧ 46 % ALIGN ≠ 0 ∧
      malloc 3 true (heap_after_malloc 2 true odd_heap 34) 100 = .error .assert_failed :=
  ⟨Reach.alloc 2 true 34 4126 (heap_after_malloc 2 true odd_heap 34) odd_heap_reach
      (by decide) (Or.inr (by decide)) rfl,
    rfl, by decide, by decide, rfl⟩

/-! ## `malloc` returns: no assertion fails for requests that fit -/

/-- The call `request_space(last, bs, n)` returns when its two assertions hold on entry,
`last` is a free block whenever `bs > 0`, and the break is not null. -/
theorem request_space_ok (os_ok : Bool) (h : Heap) (last bs n : Nat)
    (h1 : (n + META_SIZE) % WORD > bs) (h2 : bs % ALIGN = 0)
    (h3 : bs ≠ 0 → last ≠ 0 ∧ (h.mem last).is_free = true) (h4 : h.brk ≠ 0) :
    ∃ b h', request_space os_ok h last bs n = .ok (b, h') := by
  unfold request_space
  rw [if_neg (by simpa using h1), if_neg (by simpa using h2)]
  simp only [sbrk_mem, sbrk_zero_fst]
  split
  · exact ⟨_, _, rfl⟩
  · by_cases hbs : bs = 0
    · subst hbs
      simp only [ne_eq, not_true_eq_false, if_false, h4]
      exact ⟨_, _, rfl⟩
    · obtain ⟨hl, hfree⟩ := h3 hbs
      rw [if_pos hbs, if_neg hl, if_neg (by simpa using hfree)]
      exact ⟨_, _, rfl⟩

/-- When the initial break is a multiple of 8, `malloc(n)` returns in every reachable
state for every request that fits below `ADDR_LIMIT`, given fuel for the block list: no
assertion of `request_space` or `split_block` fails and no null pointer is dereferenced. -/
theorem malloc_returns (b0 : Nat) (h : Heap) (live : List Nat) (hb0 : 0 < b0)
    (hb1 : b0 < ADDR_LIMIT) (hal : b0 % ALIGN = 0) (hR : Reach ADDR_LIMIT b0 h live)
    (n : Nat) (hfit : h.brk + n + 32 < ADDR_LIMIT) :
    ∃ N, ∀ fuel os_ok, N ≤ fuel → ∃ p h', malloc fuel os_ok h n = .ok (p, h') := by
  obtain ⟨L, hI⟩ := reach_live_inv hb0 hb1 hR
  obtain ⟨hseg, hbrk0, hbrk⟩ := hI.1
  have hS : SizeInv h := reach_size_inv hal hR
  refine ⟨L.length, fun fuel os_ok hfuel => ?_⟩
  by_cases hn : n = 0
  · subst hn
    exact ⟨0, h, malloc_size_zero fuel os_ok h⟩
  have hn24 : (n + META_SIZE) % WORD = n + META_SIZE :=
    Nat.mod_eq_of_lt (by unfold META_SIZE WORD ADDR_LIMIT at *; omega)
  by_cases hbase : h.global_base = 0
  · obtain ⟨b, h1, hrs⟩ := request_space_ok os_ok h 0 0 n (by rw [hn24]; omega) rfl
      (fun h0 => absurd rfl h0) (by omega)
    unfold malloc
    rw [if_neg hn, if_pos hbase]
    simp only [hrs]
    split
    · exact ⟨_, _, rfl⟩
    · exact ⟨_, _, rfl⟩
  · obtain ⟨r, st, hf, hbs, hcase⟩ :=
      find_free_block_spec h.global_base fuel hseg
        (by unfold WORD ADDR_LIMIT at *; omega) (by omega : 0 < n) hbase hfuel
    rcases hcase with ⟨P, R, c, S, hFd, hblk, hheap⟩ | ⟨P, R, c, hE, hblk, hlast, hheap⟩
    · have hpos := (walk_facts hseg hFd.1).2.2.2.2.2.2.2
      rw [hFd.1.res] at hpos
      obtain ⟨g', hs⟩ := split_block_ok (mark_allocated r.heap r.block) r.block r.block_size n
        (by rw [hblk]; omega) (by rw [hbs]; exact hFd.2.2)
      exact ⟨_, _, malloc_found_eq fuel os_ok hn hbase hf (by rw [hblk]; omega) hs⟩
    · have hst8 : r.block_size % ALIGN = 0 := by
        obtain ⟨st', hst', _, hbs', _⟩ := find_free_block_inv hf
        rw [hbs']
        refine find_loop_size h.mem n hS fuel _ _ hst' ?_
        simp only
        split
        · exact hS _
        · rfl
      have hlpos := (walk_facts hseg (exhausted_walk hE)).2.2.2.2.2.2.2
      simp only at hlpos
      obtain ⟨b, h1, hrs⟩ := request_space_ok os_ok r.heap r.last r.block_size n
        (by rw [hn24, hbs]; have := hE.small; omega) hst8
        (fun hne => by
          rw [hheap, hlast]
          refine ⟨by omega, ?_⟩
          rcases hE.run with ⟨_, _, hz⟩ | ⟨hfree, _⟩
          · exact absurd (hbs.trans hz) hne
          · exact hfree _ (List.mem_of_mem_head? (head?_concat R c)))
        (by rw [hheap]; omega)
      unfold malloc
      rw [if_neg hn, if_neg hbase]
      simp only [hf, hblk, if_true, hrs]
      split
      · exact ⟨_, _, rfl⟩
      · exact ⟨_, _, rfl⟩

end Malloc
